import Mathlib

/-!
Verification development for the TagDeck three-way sync / undo engine
(`src-tauri/src`).  Rust strings are embedded as `List Char`; each Lean
definition mirrors one Rust function or code block, named after it where
Lean allows.  Stateful code is embedded as explicit state passing over
function-typed stores; machine integers (`i64`) are embedded as `Int`
(no arithmetic overflows occur in the modelled code paths).
-/

namespace TagDeck

/-- Delimiter between the free-text user comment and the tag block
(`const DELIMITER: &str = " && "` in `metadata.rs`, and the literal
`" && "` used in `commands.rs`, `db.rs`). -/
def DELIM : List Char := [' ', '&', '&', ' ']

/-- Embeds Rust `str::find(pat)` followed by splitting at the first
occurrence (`&s[..idx]`, `&s[idx + pat.len()..]`), as done in
`commands.rs` (`batch_add_tag`, `batch_remove_tag`, `get_global_tags`),
`db.rs::sync_tags` and `str::split_once` in `metadata.rs::write_tags`.
Returns `none` when the pattern does not occur. -/
def splitOnFirst (sep : List Char) : List Char → Option (List Char × List Char)
  | [] => none
  | c :: rest =>
    if sep.isPrefixOf (c :: rest) then some ([], (c :: rest).drop sep.length)
    else
      match splitOnFirst sep rest with
      | some (l, r) => some (c :: l, r)
      | none => none

/-- Whether `sep` occurs as a contiguous subsequence of `l`
(Rust `str::contains`); used to state side conditions on re-decoding. -/
def containsSeq (sep : List Char) : List Char → Bool
  | [] => sep.isEmpty
  | c :: rest => sep.isPrefixOf (c :: rest) || containsSeq sep rest

/-- Embeds Rust `str::split(';')`: splits at every semicolon, keeping
empty pieces (so the empty string yields one empty piece). -/
def splitSemi : List Char → List (List Char)
  | [] => [[]]
  | c :: rest =>
    if c = ';' then [] :: splitSemi rest
    else
      match splitSemi rest with
      | [] => [[c]]
      | p :: ps => (c :: p) :: ps

/-- Embeds Rust `str::trim`: removes whitespace from both ends. -/
def strTrim (l : List Char) : List Char :=
  ((l.dropWhile Char.isWhitespace).reverse.dropWhile Char.isWhitespace).reverse

/-- Embeds Rust `str::to_lowercase` as used for case-insensitive tag
comparison (ASCII-adequate for the modelled comparisons). -/
def toLowerList (l : List Char) : List Char := l.map Char.toLower

/-- Embeds the tag-block parse used identically in `batch_add_tag`,
`batch_remove_tag` (`commands.rs`), `get_global_tags` and
`db.rs::sync_tags`: split on `';'`, trim each piece, drop empties. -/
def parseTags (block : List Char) : List (List Char) :=
  ((splitSemi block).map strTrim).filter (fun t => t ≠ [])

/-- Decoding a raw comment field into (user comment, tag list): split at
the first `" && "`; if absent the whole string is the user comment and
the tag list is empty (`commands.rs` lines 223-233 and their twins). -/
def decodeComment (raw : List Char) : List Char × List (List Char) :=
  match splitOnFirst DELIM raw with
  | none => (raw, [])
  | some (u, t) => (u, parseTags t)

/-- Embeds `tags.join("; ")` from the reconstruction code. -/
def joinTags : List (List Char) → List Char
  | [] => []
  | [t] => t
  | t :: rest => t ++ [';', ' '] ++ joinTags rest

/-- Embeds the comment reconstruction of `batch_add_tag` /
`batch_remove_tag` (`commands.rs` lines 240-249 and 344-354): empty tag
block emits the user comment unchanged; otherwise the delimiter is
emitted even for an empty user comment. -/
def encodeComment (user : List Char) (tags : List (List Char)) : List Char :=
  let block := joinTags tags
  if block ≠ [] then
    if user = [] then DELIM ++ block else user ++ DELIM ++ block
  else user

/-- Embeds `models::Track` restricted to the fields the modelled
operations read or write (`id`, `persistent_id`, `file_path`,
`comment_raw`, `rating`); the remaining columns (artist, title, album,
bpm, ...) are untouched by every code path under verification. -/
structure SysTrack where
  id : Int
  persistent_id : String
  file_path : String
  comment_raw : Option (List Char)
  rating : Int
deriving DecidableEq

/-- The three mutable stores the engine writes: the audio files' tag
chunks keyed by path (`metadata::write_metadata`), the local relational
store keyed by track id (`db.rs`), and the external gateway mirror keyed
by persistent id (`apple_music.rs`, an external collaborator whose
effect is its §4.2 contract: per-item best-effort field updates).
`gwRating` is the gateway's rating mirror (`update_track_rating`). -/
structure Stores where
  db : Int → Option SysTrack
  file : String → List Char
  gw : String → List Char
  gwRating : String → Int

/-- Embeds `db.rs::update_track_metadata` (`UPDATE tracks SET
comment_raw = ?1 WHERE id = ?2`): a no-op when no row has the id. -/
def dbUpdateComment (db : Int → Option SysTrack) (i : Int) (c : List Char) :
    Int → Option SysTrack :=
  match db i with
  | some tr => Function.update db i (some { tr with comment_raw := some c })
  | none => db

/-- Embeds `undo::TrackState` (comment strings as `List Char`). -/
structure TrackState where
  id : Int
  persistent_id : String
  file_path : String
  old_comment : List Char
  new_comment : List Char
deriving DecidableEq

/-- Embeds the `Action::UpdateTrackComments` variant of `undo::Action`,
the only variant the claims under verification quantify over (the
`AddToPlaylist` and `UpdateTrackInfo` variants touch disjoint state). -/
structure Action where
  tracks : List TrackState
deriving DecidableEq

/-- A write performed against one of the three stores, in program
order; used to state the ordering and skip semantics of the
compensating write paths. -/
inductive WriteEvent where
  | file : String → List Char → WriteEvent
  | store : Int → List Char → WriteEvent
  | gateway : String → List Char → WriteEvent
deriving DecidableEq

/-- Applies a queued gateway comment batch in order; per §4.2 of the
contract, `batch_update_track_comments` is semantically the single-item
`update_comment` applied to each pair in turn. -/
def applyGwQueue (g : String → List Char) : List (String × List Char) → String → List Char
  | [] => g
  | (p, c) :: rest => applyGwQueue (Function.update g p c) rest

/-- Embeds the end-of-loop flush `let _ = batch_update_track_comments(updates)`
(`undo.rs` lines 101-104 and 177-179): a failing batch call (`gwFail`)
is discarded, leaving the mirror unchanged. -/
def flushGw (gwFail : Bool) (g : String → List Char)
    (q : List (String × List Char)) : String → List Char :=
  if gwFail then g else applyGwQueue g q

/-- Gateway events emitted by a (successful) batch flush. -/
def gwEvents (gwFail : Bool) (q : List (String × List Char)) : List WriteEvent :=
  if gwFail then [] else q.map (fun p => WriteEvent.gateway p.1 p.2)

/-- Loop body of `UndoStack::undo` for one captured track (`undo.rs`
lines 81-99): write the old comment to the file first (`fl` tells which
paths fail; a failure `continue`s, skipping the store write and the
gateway queueing), then the local store, then queue the gateway update
when the persistent id is nonempty.  Store writes (`update_track_metadata`)
are modelled as succeeding; their `Err` arm only logs. -/
def undoTrackStep (fl : String → Bool)
    (acc : Stores × List (String × List Char) × List WriteEvent)
    (t : TrackState) : Stores × List (String × List Char) × List WriteEvent :=
  if fl t.file_path then acc
  else
    ({ acc.1 with
        file := Function.update acc.1.file t.file_path t.old_comment,
        db := dbUpdateComment acc.1.db t.id t.old_comment },
     (if t.persistent_id.isEmpty then acc.2.1
      else acc.2.1 ++ [(t.persistent_id, t.old_comment)]),
     acc.2.2 ++ [WriteEvent.file t.file_path t.old_comment,
                 WriteEvent.store t.id t.old_comment])

/-- The `Action::UpdateTrackComments` arm of `UndoStack::undo`: process
every captured track, then flush the queued gateway updates in one
best-effort batch.  Returns the new stores and the write trace. -/
def undoAction (fl : String → Bool) (gwFail : Bool) (s : Stores) (a : Action) :
    Stores × List WriteEvent :=
  let r := a.tracks.foldl (undoTrackStep fl) (s, [], [])
  ({ r.1 with gw := flushGw gwFail r.1.gw r.2.1 }, r.2.2 ++ gwEvents gwFail r.2.1)

/-- Loop body of `UndoStack::redo` for one captured track (`undo.rs`
lines 163-176): the file write's result is discarded (`let _ =`), so a
failing file write does NOT skip the store write or the gateway
queueing. -/
def redoTrackStep (fl : String → Bool)
    (acc : Stores × List (String × List Char) × List WriteEvent)
    (t : TrackState) : Stores × List (String × List Char) × List WriteEvent :=
  ((if fl t.file_path then
      { acc.1 with db := dbUpdateComment acc.1.db t.id t.new_comment }
    else
      { acc.1 with
        file := Function.update acc.1.file t.file_path t.new_comment,
        db := dbUpdateComment acc.1.db t.id t.new_comment }),
   (if t.persistent_id.isEmpty then acc.2.1
    else acc.2.1 ++ [(t.persistent_id, t.new_comment)]),
   acc.2.2 ++ (if fl t.file_path then [WriteEvent.store t.id t.new_comment]
               else [WriteEvent.file t.file_path t.new_comment,
                     WriteEvent.store t.id t.new_comment]))

/-- The `Action::UpdateTrackComments` arm of `UndoStack::redo`. -/
def redoAction (fl : String → Bool) (gwFail : Bool) (s : Stores) (a : Action) :
    Stores × List WriteEvent :=
  let r := a.tracks.foldl (redoTrackStep fl) (s, [], [])
  ({ r.1 with gw := flushGw gwFail r.1.gw r.2.1 }, r.2.2 ++ gwEvents gwFail r.2.1)

/-- Embeds `undo::UndoStack` (two `Vec<Action>` used as stacks; the list
head models the vector's top). -/
structure UndoStack where
  undo_stack : List Action
  redo_stack : List Action
deriving DecidableEq

/-- Embeds `UndoStack::push`: append to undo, clear redo. -/
def UndoStack.push (st : UndoStack) (a : Action) : UndoStack :=
  ⟨a :: st.undo_stack, []⟩

/-- Embeds `UndoStack::undo` on a stack of comment-update actions: pop
the top action, replay the old values, move the action to the redo
stack.  The human-readable description it returns is not modelled. -/
def undoCall (fl : String → Bool) (gwFail : Bool) (st : UndoStack) (s : Stores) :
    UndoStack × Stores :=
  match st.undo_stack with
  | [] => (st, s)
  | a :: rest => (⟨rest, a :: st.redo_stack⟩, (undoAction fl gwFail s a).1)

/-- Embeds `UndoStack::redo`: pop the top redo action, replay the new
values, move it back to the undo stack. -/
def redoCall (fl : String → Bool) (gwFail : Bool) (st : UndoStack) (s : Stores) :
    UndoStack × Stores :=
  match st.redo_stack with
  | [] => (st, s)
  | a :: rest => (⟨a :: st.undo_stack, rest⟩, (redoAction fl gwFail s a).1)

/-- A sequence of `undo()` calls; each call carries its own transient
file-failure oracle and gateway-batch outcome. -/
def undoRun : List ((String → Bool) × Bool) → UndoStack × Stores → UndoStack × Stores
  | [], p => p
  | f :: fs, (st, s) => undoRun fs (undoCall f.1 f.2 st s)

/-- A sequence of `redo()` calls. -/
def redoRun : List ((String → Bool) × Bool) → UndoStack × Stores → UndoStack × Stores
  | [], p => p
  | f :: fs, (st, s) => redoRun fs (redoCall f.1 f.2 st s)

/-- The gateway updates queued by one undo pass over a track list
(closed form of the queue accumulated by `undoTrackStep`). -/
def undoQueue (fl : String → Bool) (l : List TrackState) : List (String × List Char) :=
  l.filterMap (fun t =>
    if fl t.file_path then none
    else if t.persistent_id.isEmpty then none
    else some (t.persistent_id, t.old_comment))

/-- The gateway updates queued by one redo pass (queued even when the
file write failed, mirroring `undo.rs` lines 166-176). -/
def redoQueue (l : List TrackState) : List (String × List Char) :=
  l.filterMap (fun t =>
    if t.persistent_id.isEmpty then none
    else some (t.persistent_id, t.new_comment))

/-- File/store events of one undo pass: per processed track the file
write precedes the store write; a failed file write contributes
nothing. -/
def undoTrace (fl : String → Bool) (l : List TrackState) : List WriteEvent :=
  (l.map (fun t =>
    if fl t.file_path then []
    else [WriteEvent.file t.file_path t.old_comment,
          WriteEvent.store t.id t.old_comment])).flatten

/-- File/store events of one redo pass: a failed file write still
contributes the store write. -/
def redoTrace (fl : String → Bool) (l : List TrackState) : List WriteEvent :=
  (l.map (fun t =>
    if fl t.file_path then [WriteEvent.store t.id t.new_comment]
    else [WriteEvent.file t.file_path t.new_comment,
          WriteEvent.store t.id t.new_comment])).flatten

/-- A captured track that touches none of the target track's three
store keys (distinct local id, file path and persistent id). -/
def Avoids (t : TrackState) (i : Int) (path pid : String) : Prop :=
  t.id ≠ i ∧ t.file_path ≠ path ∧ t.persistent_id ≠ pid

instance (t : TrackState) (i : Int) (path pid : String) :
    Decidable (Avoids t i path pid) := by unfold Avoids; infer_instance

/-- All three stores agree on value `c` for the target track (its local
row exists and carries `c` as comment). -/
def TargetIs (s : Stores) (i : Int) (path pid : String) (c : List Char) : Prop :=
  (∃ tr, s.db i = some tr ∧ tr.comment_raw = some c) ∧
  s.file path = c ∧ s.gw pid = c

theorem dbUpdateComment_ne {db : Int → Option SysTrack} {j i : Int}
    (h : j ≠ i) (c : List Char) : dbUpdateComment db j c i = db i := by
  unfold dbUpdateComment
  cases db j with
  | none => rfl
  | some tr => exact Function.update_noteq (fun hh => h hh.symm) _ _

theorem dbUpdateComment_self {db : Int → Option SysTrack} {i : Int} {tr : SysTrack}
    (h : db i = some tr) (c : List Char) :
    dbUpdateComment db i c i = some { tr with comment_raw := some c } := by
  unfold dbUpdateComment
  rw [h]
  exact Function.update_same _ _ _

theorem applyGwQueue_append (g : String → List Char)
    (q₁ q₂ : List (String × List Char)) :
    applyGwQueue g (q₁ ++ q₂) = applyGwQueue (applyGwQueue g q₁) q₂ := by
  induction q₁ generalizing g with
  | nil => rfl
  | cons e rest ih => simpa [applyGwQueue] using ih (Function.update g e.1 e.2)

theorem applyGwQueue_notMem {pid : String} {q : List (String × List Char)}
    (h : ∀ e ∈ q, e.1 ≠ pid) (g : String → List Char) :
    applyGwQueue g q pid = g pid := by
  induction q generalizing g with
  | nil => rfl
  | cons e rest ih =>
    have he : e.1 ≠ pid := h e (by simp)
    rw [applyGwQueue, ih (fun x hx => h x (by simp [hx])),
      Function.update_noteq (fun hh => he hh.symm)]

/-- One undo pass leaves the gateway store untouched and appends
exactly `undoQueue`/`undoTrace` to the accumulated queue and trace. -/
theorem undoFold_closed (fl : String → Bool) (l : List TrackState) :
    ∀ s q tr,
      ((l.foldl (undoTrackStep fl) (s, q, tr)).1).gw = s.gw ∧
      (l.foldl (undoTrackStep fl) (s, q, tr)).2.1 = q ++ undoQueue fl l ∧
      (l.foldl (undoTrackStep fl) (s, q, tr)).2.2 = tr ++ undoTrace fl l := by
  induction l with
  | nil => intro s q tr; simp [undoQueue, undoTrace]
  | cons u rest ih =>
    intro s q tr
    by_cases hu : fl u.file_path
    · simpa [undoTrackStep, hu, undoQueue, undoTrace, List.filterMap_cons] using ih s q tr
    · have := ih { s with
        file := Function.update s.file u.file_path u.old_comment,
        db := dbUpdateComment s.db u.id u.old_comment }
        (if u.persistent_id.isEmpty then q else q ++ [(u.persistent_id, u.old_comment)])
        (tr ++ [WriteEvent.file u.file_path u.old_comment,
                WriteEvent.store u.id u.old_comment])
      by_cases hp : u.persistent_id.isEmpty <;>
        simpa [undoTrackStep, hu, hp, undoQueue, undoTrace, List.filterMap_cons] using this

/-- One redo pass leaves the gateway store untouched and appends
exactly `redoQueue`/`redoTrace`. -/
theorem redoFold_closed (fl : String → Bool) (l : List TrackState) :
    ∀ s q tr,
      ((l.foldl (redoTrackStep fl) (s, q, tr)).1).gw = s.gw ∧
      (l.foldl (redoTrackStep fl) (s, q, tr)).2.1 = q ++ redoQueue l ∧
      (l.foldl (redoTrackStep fl) (s, q, tr)).2.2 = tr ++ redoTrace fl l := by
  induction l with
  | nil => intro s q tr; simp [redoQueue, redoTrace]
  | cons u rest ih =>
    intro s q tr
    by_cases hu : fl u.file_path
    · have := ih { s with db := dbUpdateComment s.db u.id u.new_comment }
        (if u.persistent_id.isEmpty then q else q ++ [(u.persistent_id, u.new_comment)])
        (tr ++ [WriteEvent.store u.id u.new_comment])
      by_cases hp : u.persistent_id.isEmpty <;>
        simpa [redoTrackStep, hu, hp, redoQueue, redoTrace, List.filterMap_cons] using this
    · have := ih { s with
          file := Function.update s.file u.file_path u.new_comment,
          db := dbUpdateComment s.db u.id u.new_comment }
        (if u.persistent_id.isEmpty then q else q ++ [(u.persistent_id, u.new_comment)])
        (tr ++ [WriteEvent.file u.file_path u.new_comment,
                WriteEvent.store u.id u.new_comment])
      by_cases hp : u.persistent_id.isEmpty <;>
        simpa [redoTrackStep, hu, hp, redoQueue, redoTrace, List.filterMap_cons] using this

/-- Tracks that avoid the target's keys leave the target's db row and
file entry untouched during an undo pass. -/
theorem undoFold_avoid (fl : String → Bool) {i : Int} {path pid : String} :
    ∀ l : List TrackState, (∀ u ∈ l, Avoids u i path pid) →
    ∀ s q tr,
      (((l.foldl (undoTrackStep fl) (s, q, tr)).1).db i = s.db i) ∧
      (((l.foldl (undoTrackStep fl) (s, q, tr)).1).file path = s.file path) := by
  intro l
  induction l with
  | nil => intro _ s q tr; simp
  | cons u rest ih =>
    intro h s q tr
    obtain ⟨hid, hpath, -⟩ := h u (by simp)
    have hrest : ∀ v ∈ rest, Avoids v i path pid := fun v hv => h v (by simp [hv])
    by_cases hu : fl u.file_path
    · simpa [undoTrackStep, hu] using ih hrest s q tr
    · have hstep := ih hrest { s with
          file := Function.update s.file u.file_path u.old_comment,
          db := dbUpdateComment s.db u.id u.old_comment }
        (if u.persistent_id.isEmpty then q else q ++ [(u.persistent_id, u.old_comment)])
        (tr ++ [WriteEvent.file u.file_path u.old_comment,
                WriteEvent.store u.id u.old_comment])
      simp only [List.foldl_cons, undoTrackStep, hu, if_false, Bool.false_eq_true]
      exact ⟨hstep.1.trans (dbUpdateComment_ne hid _),
        hstep.2.trans (Function.update_noteq (Ne.symm hpath) _ _)⟩

/-- Tracks that avoid the target's keys leave the target's db row and
file entry untouched during a redo pass. -/
theorem redoFold_avoid (fl : String → Bool) {i : Int} {path pid : String} :
    ∀ l : List TrackState, (∀ u ∈ l, Avoids u i path pid) →
    ∀ s q tr,
      (((l.foldl (redoTrackStep fl) (s, q, tr)).1).db i = s.db i) ∧
      (((l.foldl (redoTrackStep fl) (s, q, tr)).1).file path = s.file path) := by
  intro l
  induction l with
  | nil => intro _ s q tr; simp
  | cons u rest ih =>
    intro h s q tr
    obtain ⟨hid, hpath, -⟩ := h u (by simp)
    have hrest : ∀ v ∈ rest, Avoids v i path pid := fun v hv => h v (by simp [hv])
    by_cases hu : fl u.file_path
    · have hstep := ih hrest { s with db := dbUpdateComment s.db u.id u.new_comment }
        (if u.persistent_id.isEmpty then q else q ++ [(u.persistent_id, u.new_comment)])
        (tr ++ [WriteEvent.store u.id u.new_comment])
      simp only [List.foldl_cons, redoTrackStep, hu, if_true]
      exact ⟨hstep.1.trans (dbUpdateComment_ne hid _), hstep.2⟩
    · have hstep := ih hrest { s with
          file := Function.update s.file u.file_path u.new_comment,
          db := dbUpdateComment s.db u.id u.new_comment }
        (if u.persistent_id.isEmpty then q else q ++ [(u.persistent_id, u.new_comment)])
        (tr ++ [WriteEvent.file u.file_path u.new_comment,
                WriteEvent.store u.id u.new_comment])
      simp only [List.foldl_cons, redoTrackStep, hu, if_false, Bool.false_eq_true]
      exact ⟨hstep.1.trans (dbUpdateComment_ne hid _),
        hstep.2.trans (Function.update_noteq (Ne.symm hpath) _ _)⟩

theorem undoQueue_avoid {fl : String → Bool} {i : Int} {path pid : String}
    {l : List TrackState} (h : ∀ u ∈ l, Avoids u i path pid) :
    ∀ e ∈ undoQueue fl l, e.1 ≠ pid := by
  intro e he
  simp only [undoQueue, List.mem_filterMap] at he
  obtain ⟨u, hu, hfu⟩ := he
  split_ifs at hfu
  simp only [Option.some.injEq] at hfu
  subst hfu
  exact (h u hu).2.2

theorem redoQueue_avoid {i : Int} {path pid : String}
    {l : List TrackState} (h : ∀ u ∈ l, Avoids u i path pid) :
    ∀ e ∈ redoQueue l, e.1 ≠ pid := by
  intro e he
  simp only [redoQueue, List.mem_filterMap] at he
  obtain ⟨u, hu, hfu⟩ := he
  split_ifs at hfu
  simp only [Option.some.injEq] at hfu
  subst hfu
  exact (h u hu).2.2

/-- Undoing an action that contains exactly one entry for the target
track (all sibling entries avoiding its keys) leaves all three stores
holding that entry's old comment, provided the target's own file write
and the gateway batch succeed. -/
theorem undoAction_target {fl : String → Bool} {i : Int} {path pid : String}
    (hfl : fl path = false) (hpid : pid ≠ "")
    {a : Action} {l₁ l₂ : List TrackState} {t : TrackState}
    (ha : a.tracks = l₁ ++ t :: l₂)
    (hid : t.id = i) (hpath : t.file_path = path) (hp : t.persistent_id = pid)
    (hl₁ : ∀ u ∈ l₁, Avoids u i path pid) (hl₂ : ∀ u ∈ l₂, Avoids u i path pid)
    {s : Stores} {tr₀ : SysTrack} (hdb : s.db i = some tr₀) :
    TargetIs (undoAction fl false s a).1 i path pid t.old_comment := by
  have hflt : fl t.file_path = false := by rw [hpath]; exact hfl
  have hpidE : pid.isEmpty = false :=
    Bool.eq_false_iff.mpr (fun hc => hpid ((String.isEmpty_iff pid).1 hc))
  have hpe : t.persistent_id.isEmpty = false := by rw [hp]; exact hpidE
  obtain ⟨hgwAll, hqAll, -⟩ := undoFold_closed fl a.tracks s [] []
  -- fold decomposition along the action's track list
  rcases hAfold : l₁.foldl (undoTrackStep fl) (s, ([] : List (String × List Char)),
      ([] : List WriteEvent)) with ⟨sA, qA, trA⟩
  have hAavoid := undoFold_avoid fl l₁ hl₁ s [] []
  rw [hAfold] at hAavoid
  have hsAdb : sA.db i = some tr₀ := by
    have := hAavoid.1
    simp only at this
    rw [this, hdb]
  have hCavoid := undoFold_avoid fl l₂ hl₂
    { sA with
      file := Function.update sA.file t.file_path t.old_comment,
      db := dbUpdateComment sA.db t.id t.old_comment }
    (qA ++ [(t.persistent_id, t.old_comment)])
    (trA ++ [WriteEvent.file t.file_path t.old_comment,
             WriteEvent.store t.id t.old_comment])
  have hfold : a.tracks.foldl (undoTrackStep fl) (s, [], []) =
      l₂.foldl (undoTrackStep fl)
        ({ sA with
            file := Function.update sA.file t.file_path t.old_comment,
            db := dbUpdateComment sA.db t.id t.old_comment },
         qA ++ [(t.persistent_id, t.old_comment)],
         trA ++ [WriteEvent.file t.file_path t.old_comment,
                 WriteEvent.store t.id t.old_comment]) := by
    rw [ha, List.foldl_append, hAfold, List.foldl_cons]
    simp [undoTrackStep, hflt, hpe]
  -- the db row and file entry after the whole fold
  have hdbC : ((a.tracks.foldl (undoTrackStep fl) (s, [], [])).1).db i =
      some { tr₀ with comment_raw := some t.old_comment } := by
    rw [hfold, hCavoid.1]
    simp only
    rw [← hid] at hsAdb
    rw [← hid]
    exact dbUpdateComment_self hsAdb t.old_comment
  have hfileC : ((a.tracks.foldl (undoTrackStep fl) (s, [], [])).1).file path =
      t.old_comment := by
    rw [hfold, hCavoid.2]
    simp only
    rw [← hpath]
    exact Function.update_same _ _ _
  -- gateway content after the flush
  have hq : undoQueue fl a.tracks =
      undoQueue fl l₁ ++ (pid, t.old_comment) :: undoQueue fl l₂ := by
    rw [ha]
    simp [undoQueue, List.filterMap_append, List.filterMap_cons, hflt, hpe, hp, hpidE]
  have hgwC : flushGw false ((a.tracks.foldl (undoTrackStep fl) (s, [], [])).1).gw
      ((a.tracks.foldl (undoTrackStep fl) (s, [], [])).2.1) pid = t.old_comment := by
    rw [hqAll, hgwAll, List.nil_append, hq]
    unfold flushGw
    rw [if_neg (by simp), applyGwQueue_append, applyGwQueue,
      applyGwQueue_notMem (undoQueue_avoid hl₂), Function.update_same]
  refine ⟨⟨{ tr₀ with comment_raw := some t.old_comment }, ?_, rfl⟩, ?_, ?_⟩
  · simpa [undoAction] using hdbC
  · simpa [undoAction] using hfileC
  · simpa [undoAction] using hgwC

/-- Redo counterpart of `undoAction_target`: all three stores end up
holding the target entry's new comment. -/
theorem redoAction_target {fl : String → Bool} {i : Int} {path pid : String}
    (hfl : fl path = false) (hpid : pid ≠ "")
    {a : Action} {l₁ l₂ : List TrackState} {t : TrackState}
    (ha : a.tracks = l₁ ++ t :: l₂)
    (hid : t.id = i) (hpath : t.file_path = path) (hp : t.persistent_id = pid)
    (hl₁ : ∀ u ∈ l₁, Avoids u i path pid) (hl₂ : ∀ u ∈ l₂, Avoids u i path pid)
    {s : Stores} {tr₀ : SysTrack} (hdb : s.db i = some tr₀) :
    TargetIs (redoAction fl false s a).1 i path pid t.new_comment := by
  have hflt : fl t.file_path = false := by rw [hpath]; exact hfl
  have hpidE : pid.isEmpty = false :=
    Bool.eq_false_iff.mpr (fun hc => hpid ((String.isEmpty_iff pid).1 hc))
  have hpe : t.persistent_id.isEmpty = false := by rw [hp]; exact hpidE
  obtain ⟨hgwAll, hqAll, -⟩ := redoFold_closed fl a.tracks s [] []
  rcases hAfold : l₁.foldl (redoTrackStep fl) (s, ([] : List (String × List Char)),
      ([] : List WriteEvent)) with ⟨sA, qA, trA⟩
  have hAavoid := redoFold_avoid fl l₁ hl₁ s [] []
  rw [hAfold] at hAavoid
  have hsAdb : sA.db i = some tr₀ := by
    have := hAavoid.1
    simp only at this
    rw [this, hdb]
  have hCavoid := redoFold_avoid fl l₂ hl₂
    { sA with
      file := Function.update sA.file t.file_path t.new_comment,
      db := dbUpdateComment sA.db t.id t.new_comment }
    (qA ++ [(t.persistent_id, t.new_comment)])
    (trA ++ [WriteEvent.file t.file_path t.new_comment,
             WriteEvent.store t.id t.new_comment])
  have hfold : a.tracks.foldl (redoTrackStep fl) (s, [], []) =
      l₂.foldl (redoTrackStep fl)
        ({ sA with
            file := Function.update sA.file t.file_path t.new_comment,
            db := dbUpdateComment sA.db t.id t.new_comment },
         qA ++ [(t.persistent_id, t.new_comment)],
         trA ++ [WriteEvent.file t.file_path t.new_comment,
                 WriteEvent.store t.id t.new_comment]) := by
    rw [ha, List.foldl_append, hAfold, List.foldl_cons]
    simp [redoTrackStep, hflt, hpe]
  have hdbC : ((a.tracks.foldl (redoTrackStep fl) (s, [], [])).1).db i =
      some { tr₀ with comment_raw := some t.new_comment } := by
    rw [hfold, hCavoid.1]
    simp only
    rw [← hid] at hsAdb
    rw [← hid]
    exact dbUpdateComment_self hsAdb t.new_comment
  have hfileC : ((a.tracks.foldl (redoTrackStep fl) (s, [], [])).1).file path =
      t.new_comment := by
    rw [hfold, hCavoid.2]
    simp only
    rw [← hpath]
    exact Function.update_same _ _ _
  have hq : redoQueue a.tracks =
      redoQueue l₁ ++ (pid, t.new_comment) :: redoQueue l₂ := by
    rw [ha]
    simp [redoQueue, List.filterMap_append, List.filterMap_cons, hpe, hp, hpidE]
  have hgwC : flushGw false ((a.tracks.foldl (redoTrackStep fl) (s, [], [])).1).gw
      ((a.tracks.foldl (redoTrackStep fl) (s, [], [])).2.1) pid = t.new_comment := by
    rw [hqAll, hgwAll, List.nil_append, hq]
    unfold flushGw
    rw [if_neg (by simp), applyGwQueue_append, applyGwQueue,
      applyGwQueue_notMem (redoQueue_avoid hl₂), Function.update_same]
  refine ⟨⟨{ tr₀ with comment_raw := some t.new_comment }, ?_, rfl⟩, ?_, ?_⟩
  · simpa [redoAction] using hdbC
  · simpa [redoAction] using hfileC
  · simpa [redoAction] using hgwC

/-- The action carries exactly one entry for the target track, with old
comment `cold` and new comment `cnew`; sibling entries avoid the
target's keys. -/
def HasTargetEntry (i : Int) (path pid : String) (a : Action)
    (cold cnew : List Char) : Prop :=
  ∃ l₁ t l₂, a.tracks = l₁ ++ t :: l₂ ∧ t.id = i ∧ t.file_path = path ∧
    t.persistent_id = pid ∧ t.old_comment = cold ∧ t.new_comment = cnew ∧
    (∀ u ∈ l₁, Avoids u i path pid) ∧ (∀ u ∈ l₂, Avoids u i path pid)

/-- A sequence of comment edits of the target track as recorded on the
undo stack, listed top (most recent) first: the top action edits from
some middle value to `cfin`, and the rest chain the middle value back to
the pre-edit value `cpre`. -/
def EditChain (i : Int) (path pid : String) :
    List Action → List Char → List Char → Prop
  | [], cpre, cfin => cfin = cpre
  | a :: rest, cpre, cfin =>
      ∃ cmid, HasTargetEntry i path pid a cmid cfin ∧
        EditChain i path pid rest cpre cmid

/-- Redo-order view of a chain: actions listed in the order redo pops
them (oldest edit first); the value after replaying all of them is the
final comment. -/
def ReplayChain (i : Int) (path pid : String) :
    List Action → List Char → List Char → Prop
  | [], c₀, c₁ => c₁ = c₀
  | a :: rest, _, c₁ =>
      ∃ cold cmid, HasTargetEntry i path pid a cold cmid ∧
        ReplayChain i path pid rest cmid c₁

theorem replayChain_append {i : Int} {path pid : String} :
    ∀ (l : List Action) (c₀ cm : List Char), ReplayChain i path pid l c₀ cm →
    ∀ (a : Action) (cold c₁ : List Char), HasTargetEntry i path pid a cold c₁ →
    ReplayChain i path pid (l ++ [a]) c₀ c₁ := by
  intro l
  induction l with
  | nil =>
    intro c₀ cm _ a cold c₁ hT
    exact ⟨cold, c₁, hT, rfl⟩
  | cons b rest ih =>
    intro c₀ cm hchain a cold c₁ hT
    obtain ⟨cold', cmid', hTb, hrest⟩ := hchain
    exact ⟨cold', cmid', hTb, ih _ _ hrest a cold c₁ hT⟩

theorem editChain_replay {i : Int} {path pid : String} :
    ∀ (acts : List Action) (cpre cfin : List Char),
      EditChain i path pid acts cpre cfin →
      ReplayChain i path pid acts.reverse cpre cfin := by
  intro acts
  induction acts with
  | nil => intro cpre cfin h; exact h
  | cons a rest ih =>
    intro cpre cfin h
    obtain ⟨cmid, hT, hrest⟩ := h
    simpa using replayChain_append rest.reverse cpre cmid (ih cpre cmid hrest) a cmid cfin hT

/-- Running one `undo()` per recorded action empties the undo stack,
moves the actions (reversed) to the redo stack, and leaves all three
stores at the pre-edit comment, provided the target track's file writes
and the gateway batches succeed throughout. -/
theorem undoRun_chain {i : Int} {path pid : String} (hpid : pid ≠ "") :
    ∀ (acts : List Action) (cpre cfin : List Char),
      EditChain i path pid acts cpre cfin →
      ∀ (sched : List ((String → Bool) × Bool)), sched.length = acts.length →
      (∀ f ∈ sched, f.1 path = false ∧ f.2 = false) →
      ∀ (rs : List Action) (s : Stores), TargetIs s i path pid cfin →
      (undoRun sched (⟨acts, rs⟩, s)).1 = ⟨[], acts.reverse ++ rs⟩ ∧
      TargetIs (undoRun sched (⟨acts, rs⟩, s)).2 i path pid cpre := by
  intro acts
  induction acts with
  | nil =>
    intro cpre cfin hchain sched hlen _ rs s hs
    have : sched = [] := List.length_eq_zero.mp hlen
    subst this
    exact ⟨rfl, hchain ▸ hs⟩
  | cons a rest ih =>
    intro cpre cfin hchain sched hlen hf rs s hs
    cases sched with
    | nil => cases hlen
    | cons f fs =>
      obtain ⟨cmid, hT, hrest⟩ := hchain
      obtain ⟨l₁, t, l₂, ha, hid, hpath, hp, hold, hnew, hl₁, hl₂⟩ := hT
      obtain ⟨hf1, hf2⟩ := hf f (by simp)
      obtain ⟨tr₀, hdb, -⟩ := hs.1
      have htgt : TargetIs (undoAction f.1 false s a).1 i path pid cmid := by
        rw [← hold]
        exact undoAction_target hf1 hpid ha hid hpath hp hl₁ hl₂ hdb
      have hstep : undoRun (f :: fs) (⟨a :: rest, rs⟩, s) =
          undoRun fs (⟨rest, a :: rs⟩, (undoAction f.1 f.2 s a).1) := by
        simp [undoRun, undoCall]
      rw [hstep, hf2]
      have := ih cpre cmid hrest fs (by simpa using hlen)
        (fun g hg => hf g (by simp [hg])) (a :: rs) _ htgt
      refine ⟨?_, this.2⟩
      rw [this.1]
      simp

/-- Running one `redo()` per action on the redo stack replays the edits
oldest-first and leaves all three stores at the final comment. -/
theorem redoRun_chain {i : Int} {path pid : String} (hpid : pid ≠ "") :
    ∀ (l : List Action) (c₀ c₁ : List Char),
      ReplayChain i path pid l c₀ c₁ →
      ∀ (sched : List ((String → Bool) × Bool)), sched.length = l.length →
      (∀ f ∈ sched, f.1 path = false ∧ f.2 = false) →
      ∀ (us : List Action) (s : Stores), TargetIs s i path pid c₀ →
      TargetIs (redoRun sched (⟨us, l⟩, s)).2 i path pid c₁ := by
  intro l
  induction l with
  | nil =>
    intro c₀ c₁ hchain sched hlen _ us s hs
    have : sched = [] := List.length_eq_zero.mp hlen
    subst this
    exact hchain ▸ hs
  | cons a rest ih =>
    intro c₀ c₁ hchain sched hlen hf us s hs
    cases sched with
    | nil => cases hlen
    | cons f fs =>
      obtain ⟨cold, cmid, hT, hrest⟩ := hchain
      obtain ⟨l₁, t, l₂, ha, hid, hpath, hp, hold, hnew, hl₁, hl₂⟩ := hT
      obtain ⟨hf1, hf2⟩ := hf f (by simp)
      obtain ⟨tr₀, hdb, -⟩ := hs.1
      have htgt : TargetIs (redoAction f.1 false s a).1 i path pid cmid := by
        rw [← hnew]
        exact redoAction_target hf1 hpid ha hid hpath hp hl₁ hl₂ hdb
      have hstep : redoRun (f :: fs) (⟨us, a :: rest⟩, s) =
          redoRun fs (⟨a :: us, rest⟩, (redoAction f.1 f.2 s a).1) := by
        simp [redoRun, redoCall]
      rw [hstep, hf2]
      exact ih cmid c₁ hrest fs (by simpa using hlen)
        (fun g hg => hf g (by simp [hg])) (a :: us) _ htgt

/-- C1: for every track (nonempty persistent id) and every sequence of
N comment edits recorded as comment-update actions on the undo stack
(`EditChain`), performing N `undo()` calls restores the track's comment
in file, local store and gateway mirror to its pre-edit value, and N
subsequent `redo()` calls restores the final edited value; this holds
even when file writes transiently fail for other, unrelated tracks of a
batched action (each call's failure oracle is arbitrary away from the
target's path). -/
theorem c1_undo_redo_convergence
    (i : Int) (path pid : String) (hpid : pid ≠ "")
    (acts : List Action) (cpre cfin : List Char)
    (hchain : EditChain i path pid acts cpre cfin)
    (sched₁ sched₂ : List ((String → Bool) × Bool))
    (hlen₁ : sched₁.length = acts.length) (hlen₂ : sched₂.length = acts.length)
    (hsched₁ : ∀ f ∈ sched₁, f.1 path = false ∧ f.2 = false)
    (hsched₂ : ∀ f ∈ sched₂, f.1 path = false ∧ f.2 = false)
    (s₀ : Stores) (hs₀ : TargetIs s₀ i path pid cfin) :
    TargetIs (undoRun sched₁ (⟨acts, []⟩, s₀)).2 i path pid cpre ∧
    TargetIs (redoRun sched₂ (undoRun sched₁ (⟨acts, []⟩, s₀))).2 i path pid cfin := by
  obtain ⟨hstack, hundo⟩ :=
    undoRun_chain hpid acts cpre cfin hchain sched₁ hlen₁ hsched₁ [] s₀ hs₀
  refine ⟨hundo, ?_⟩
  have h1 : (undoRun sched₁ (⟨acts, []⟩, s₀)).1 = ⟨[], acts.reverse⟩ := by
    simpa using hstack
  rw [← Prod.mk.eta (p := undoRun sched₁ (⟨acts, []⟩, s₀)), h1]
  exact redoRun_chain hpid acts.reverse cpre cfin
    (editChain_replay acts cpre cfin hchain) sched₂ (by simpa using hlen₂)
    hsched₂ [] _ hundo

/-- Concrete two-edit scenario for the C1 witness: target track id 1 at
path "a" with persistent id "P"; an unrelated track id 2 at path "b"
shares both batched actions, and its file write fails during the first
undo and the last redo. -/
def c1wActs : List Action :=
  [⟨[⟨2, "Q", "b", "d1".toList, "d2".toList⟩,
     ⟨1, "P", "a", "c1".toList, "c2".toList⟩]⟩,
   ⟨[⟨1, "P", "a", "c0".toList, "c1".toList⟩,
     ⟨2, "Q", "b", "d0".toList, "d1".toList⟩]⟩]

/-- Initial stores for the C1 witness: all three stores hold the final
edited comments. -/
def c1wStores : Stores :=
  ⟨fun j => if j = 1 then some ⟨1, "P", "a", some ("c2".toList), 0⟩
    else if j = 2 then some ⟨2, "Q", "b", some ("d2".toList), 0⟩ else none,
   fun p => if p = "a" then "c2".toList else if p = "b" then "d2".toList else [],
   fun g => if g = "P" then "c2".toList else if g = "Q" then "d2".toList else [],
   fun _ => 0⟩

/-- Failure schedules for the C1 witness: path "b" fails on the first
undo and on the second redo; the gateway batches succeed. -/
def c1wSched₁ : List ((String → Bool) × Bool) :=
  [(fun p => p == "b", false), (fun _ => false, false)]

def c1wSched₂ : List ((String → Bool) × Bool) :=
  [(fun _ => false, false), (fun p => p == "b", false)]

theorem c1_undo_redo_convergence_witness :
    TargetIs (undoRun c1wSched₁ (⟨c1wActs, []⟩, c1wStores)).2 1 "a" "P" ("c0".toList) ∧
    TargetIs (redoRun c1wSched₂ (undoRun c1wSched₁ (⟨c1wActs, []⟩, c1wStores))).2
      1 "a" "P" ("c2".toList) :=
  c1_undo_redo_convergence 1 "a" "P" (by decide) c1wActs ("c0".toList) ("c2".toList)
    ⟨"c1".toList,
      ⟨[⟨2, "Q", "b", "d1".toList, "d2".toList⟩],
        ⟨1, "P", "a", "c1".toList, "c2".toList⟩, [],
        rfl, rfl, rfl, rfl, rfl, rfl, by decide, by decide⟩,
      ⟨"c0".toList,
        ⟨[], ⟨1, "P", "a", "c0".toList, "c1".toList⟩,
          [⟨2, "Q", "b", "d0".toList, "d1".toList⟩],
          rfl, rfl, rfl, rfl, rfl, rfl, by decide, by decide⟩,
        rfl⟩⟩
    c1wSched₁ c1wSched₂ rfl rfl
    (by
      intro f hf
      simp only [c1wSched₁, List.mem_cons, List.mem_singleton] at hf
      rcases hf with h | h | h <;> first | subst h; exact ⟨rfl, rfl⟩ | cases h)
    (by
      intro f hf
      simp only [c1wSched₂, List.mem_cons, List.mem_singleton] at hf
      rcases hf with h | h | h <;> first | subst h; exact ⟨rfl, rfl⟩ | cases h)
    c1wStores
    ⟨⟨⟨1, "P", "a", some ("c2".toList), 0⟩, by decide, by decide⟩, by decide, by decide⟩

/-- C2 (amended): in both `undo()` and `redo()` the write trace of a
comment-update action is, per captured track in order, the file write
first and then the local-store write, with all gateway writes batched
after the loop (none when the batch fails); in `undo()` a failed file
write skips that track's store and gateway writes while the remaining
tracks are still processed, whereas in `redo()` the file write's result
is ignored, so the failed track's store write and gateway update still
proceed. -/
theorem c2_write_order (fl : String → Bool) (gwFail : Bool) (s : Stores) (a : Action) :
    (undoAction fl gwFail s a).2 =
      undoTrace fl a.tracks ++ gwEvents gwFail (undoQueue fl a.tracks) ∧
    (redoAction fl gwFail s a).2 =
      redoTrace fl a.tracks ++ gwEvents gwFail (redoQueue a.tracks) := by
  obtain ⟨-, hq₁, htr₁⟩ := undoFold_closed fl a.tracks s [] []
  obtain ⟨-, hq₂, htr₂⟩ := redoFold_closed fl a.tracks s [] []
  constructor
  · show (a.tracks.foldl (undoTrackStep fl) (s, [], [])).2.2 ++
      gwEvents gwFail ((a.tracks.foldl (undoTrackStep fl) (s, [], [])).2.1) = _
    rw [hq₁, htr₁]
    simp
  · show (a.tracks.foldl (redoTrackStep fl) (s, [], [])).2.2 ++
      gwEvents gwFail ((a.tracks.foldl (redoTrackStep fl) (s, [], [])).2.1) = _
    rw [hq₂, htr₂]
    simp

/-- Concrete state for the C2 counterexample: one track whose file
write will fail during `redo()`. -/
def c2xStores : Stores :=
  ⟨fun j => if j = 1 then some ⟨1, "P", "x", some ("old".toList), 0⟩ else none,
   fun _ => "old".toList, fun _ => "old".toList, fun _ => 0⟩

/-- C2 counterexample: redoing a comment-update action whose only
track's file write fails leaves the file at the old value yet still
performs the local-store and gateway writes, contradicting the claim
that a file-write failure skips that track's store and gateway writes
in `redo()` as well as in `undo()`. -/
theorem c2_counterexample :
    ((redoAction (fun p => p == "x") false c2xStores
        ⟨[⟨1, "P", "x", "old".toList, "new".toList⟩]⟩).1).file "x" = "old".toList ∧
    ((redoAction (fun p => p == "x") false c2xStores
        ⟨[⟨1, "P", "x", "old".toList, "new".toList⟩]⟩).1).db 1 =
      some ⟨1, "P", "x", some ("new".toList), 0⟩ ∧
    ((redoAction (fun p => p == "x") false c2xStores
        ⟨[⟨1, "P", "x", "old".toList, "new".toList⟩]⟩).1).gw "P" = "new".toList := by
  decide

/-- Embeds the `final_comment` computation of `metadata.rs::write_tags`
(lines 110-131): split the existing file comment at the first
delimiter, keep the left side; when the kept user part trims to empty,
a nonempty tag string is prefixed with `DELIMITER.trim()` — the
two-character string `"&&"` — rather than the four-character
delimiter. -/
def writeTagsFinalComment (existing_comment new_tags_string : List Char) : List Char :=
  let user_part :=
    match splitOnFirst DELIM existing_comment with
    | some (u, _) => u
    | none => existing_comment
  if strTrim user_part = [] then
    if new_tags_string = [] then []
    else strTrim DELIM ++ new_tags_string
  else
    if new_tags_string = [] then user_part
    else user_part ++ DELIM ++ new_tags_string

/-- C4: evaluating `metadata.rs::write_tags` at an empty existing
comment and the nonempty tag block "house; techno" emits
`"&&house; techno"`, which does not begin with the delimiter `" && "`
and decodes back to a plain user comment with an empty tag list — the
blank-user-comment re-encoding the claim describes (and the inline
comment in the repo's `verify_tags.rs` prototype announces as
`" && Tags"`) is not what the code produces. -/
theorem c4_write_tags_eval :
    writeTagsFinalComment [] ("house; techno".toList) = "&&house; techno".toList ∧
    ¬ DELIM.isPrefixOf (writeTagsFinalComment [] ("house; techno".toList)) ∧
    decodeComment (writeTagsFinalComment [] ("house; techno".toList)) =
      ("&&house; techno".toList, []) ∧
    encodeComment [] ["house".toList, "techno".toList] =
      " && house; techno".toList := by
  decide

/-- Embeds `SyncResult` (`commands.rs`). -/
structure SyncResult where
  tracks_updated : Nat
  playlists_updated : Nat
deriving DecidableEq

/-- Embeds the sync-flag protocol of `import_from_music_app`
(`commands.rs` lines 406-457): `is_syncing.swap(true)` returning `true`
rejects the call with an error; otherwise the body runs and the
`SyncGuard` drop stores `false` on every exit path, success or failure.
The body's outcome (track count or sidecar/db error) is abstracted as
`body`. -/
def import_from_music_app (is_syncing : Bool) (body : Except String Nat) :
    Except String Nat × Bool :=
  if is_syncing then (Except.error "Sync already in progress", is_syncing)
  else (body, false)

/-- Embeds the sync-flag protocol of `sync_recent_changes`
(`commands.rs` lines 467-490): a set flag short-circuits with
`Ok(SyncResult{0,0})` before any store access; otherwise the flag is
taken, the three-phase body runs over the store, and the `SyncGuard`
drop clears the flag on every exit path. -/
def sync_recent_changes {σ : Type} (is_syncing : Bool)
    (body : σ → σ × Except String SyncResult) (s : σ) :
    Except String SyncResult × Bool × σ :=
  if is_syncing then (Except.ok ⟨0, 0⟩, is_syncing, s)
  else ((body s).2, false, (body s).1)

/-- C8: while a sync pass holds the flag, a concurrent incremental sync
returns the zero-change result without touching the store, without
error, and without queueing (it returns immediately, flag untouched); a
concurrent full import is rejected with an error; and a pass that did
acquire the flag releases it on completion, also when its body fails. -/
theorem c8_sync_flag_mutual_exclusion {σ : Type}
    (body : σ → σ × Except String SyncResult) (s : σ) (ib : Except String Nat) :
    sync_recent_changes true body s = (Except.ok ⟨0, 0⟩, true, s) ∧
    import_from_music_app true ib = (Except.error "Sync already in progress", true) ∧
    (import_from_music_app false ib).2 = false ∧
    (sync_recent_changes false body s).2.1 = false :=
  ⟨rfl, rfl, rfl, rfl⟩

/-- Application state seen by the exposed commands: the three stores
plus the undo/redo stacks (`AppState` in `commands.rs`). -/
structure AppState where
  stores : Stores
  undoSt : UndoStack

/-- Embeds `commands::write_tags` (lines 142-193): fetch the track
(error if absent), capture the undo action, write the file (failure
surfaces as the command's error, aborting store and gateway writes),
touch the file, update the gateway comment (failure only logged),
update the local row, push the undo action.  Store writes are modelled
as succeeding. -/
def write_tags_cmd (fileFail gwFail : Bool) (id : Int) (new_tags : List Char)
    (st : AppState) : Except String Unit × AppState :=
  match st.stores.db id with
  | none => (Except.error "Track not found", st)
  | some track =>
    let old_comment := track.comment_raw.getD []
    if fileFail then (Except.error "file write failed", st)
    else
      (Except.ok (),
       ⟨⟨Function.update st.stores.db track.id
           (some { track with comment_raw := some new_tags }),
         Function.update st.stores.file track.file_path new_tags,
         (if gwFail then st.stores.gw
          else Function.update st.stores.gw track.persistent_id new_tags),
         st.stores.gwRating⟩,
        st.undoSt.push ⟨[⟨track.id, track.persistent_id, track.file_path,
          old_comment, new_tags⟩]⟩⟩)

/-- Embeds `commands::update_rating` (lines 757-780): fetch the
persistent id (error if absent), call the gateway `update_track_rating`
FIRST — a gateway failure returns the error immediately, before the
local-store write — then update the local row's rating. -/
def update_rating (gwFail : Bool) (track_id : Int) (rating : Int)
    (st : AppState) : Except String Unit × AppState :=
  match st.stores.db track_id with
  | none => (Except.error "track not found", st)
  | some track =>
    if gwFail then (Except.error "Failed to update Apple Music rating", st)
    else
      (Except.ok (),
       ⟨⟨Function.update st.stores.db track_id (some { track with rating := rating }),
         st.stores.file, st.stores.gw,
         Function.update st.stores.gwRating track.persistent_id rating⟩,
        st.undoSt⟩)

/-- Per-track loop body of `commands::batch_add_tag` (lines 219-282),
folding over (db row map, file map, gateway queue, undo entries): parse
the current comment, skip the track when the tag is already present up
to case; otherwise record the undo entry (this happens BEFORE the file
write in the source), then write file (failure `continue`s, keeping the
undo entry but skipping the store write and gateway queueing), then the
store, then queue the gateway update when the persistent id is nonempty
(an empty one only touches the file's mtime). -/
def batch_add_tag_step (fl : String → Bool) (raw_tag : List Char)
    (acc : (Int → Option SysTrack) × (String → List Char) ×
      List (String × List Char) × List TrackState)
    (track : SysTrack) :
    (Int → Option SysTrack) × (String → List Char) ×
      List (String × List Char) × List TrackState :=
  let current_comment := track.comment_raw.getD []
  let dec := decodeComment current_comment
  if dec.2.any (fun t => toLowerList t = toLowerList raw_tag) then acc
  else
    let new_full_comment := encodeComment dec.1 (dec.2 ++ [raw_tag])
    let undo' := acc.2.2.2 ++ [⟨track.id, track.persistent_id, track.file_path,
      current_comment, new_full_comment⟩]
    if fl track.file_path then (acc.1, acc.2.1, acc.2.2.1, undo')
    else
      (Function.update acc.1 track.id
         (some { track with comment_raw := some new_full_comment }),
       Function.update acc.2.1 track.file_path new_full_comment,
       (if track.persistent_id.isEmpty then acc.2.2.1
        else acc.2.2.1 ++ [(track.persistent_id, new_full_comment)]),
       undo')

/-- Embeds `commands::batch_add_tag` (lines 196-299): an empty trimmed
tag returns immediately; otherwise the tracks are fetched up front
(stale snapshot), each is processed by `batch_add_tag_step`, the queued
gateway updates are flushed in one best-effort batch only when nonempty,
and the undo action is pushed only when at least one track changed. -/
def batch_add_tag (fl : String → Bool) (gwFail : Bool) (ids : List Int)
    (tag : List Char) (st : AppState) : AppState :=
  let raw_tag := strTrim tag
  if raw_tag = [] then st
  else
    let tracks_to_update := ids.filterMap st.stores.db
    let r := tracks_to_update.foldl (batch_add_tag_step fl raw_tag)
      (st.stores.db, st.stores.file, [], [])
    ⟨⟨r.1, r.2.1,
      (if r.2.2.1 = [] then st.stores.gw else flushGw gwFail st.stores.gw r.2.2.1),
      st.stores.gwRating⟩,
     (if r.2.2.2 = [] then st.undoSt else st.undoSt.push ⟨r.2.2.2⟩)⟩

/-- Per-track loop body of `commands::batch_remove_tag` (lines
322-386): drop every tag equal to the trimmed tag up to case; the track
is written only when the tag list shrank. -/
def batch_remove_tag_step (fl : String → Bool) (raw_tag : List Char)
    (acc : (Int → Option SysTrack) × (String → List Char) ×
      List (String × List Char) × List TrackState)
    (track : SysTrack) :
    (Int → Option SysTrack) × (String → List Char) ×
      List (String × List Char) × List TrackState :=
  let current_comment := track.comment_raw.getD []
  let dec := decodeComment current_comment
  let tags' := dec.2.filter (fun t => toLowerList t ≠ toLowerList raw_tag)
  if tags'.length ≠ dec.2.length then
    let new_full_comment := encodeComment dec.1 tags'
    let undo' := acc.2.2.2 ++ [⟨track.id, track.persistent_id, track.file_path,
      current_comment, new_full_comment⟩]
    if fl track.file_path then (acc.1, acc.2.1, acc.2.2.1, undo')
    else
      (Function.update acc.1 track.id
         (some { track with comment_raw := some new_full_comment }),
       Function.update acc.2.1 track.file_path new_full_comment,
       (if track.persistent_id.isEmpty then acc.2.2.1
        else acc.2.2.1 ++ [(track.persistent_id, new_full_comment)]),
       undo')
  else acc

/-- Embeds `commands::batch_remove_tag` (lines 302-403). -/
def batch_remove_tag (fl : String → Bool) (gwFail : Bool) (ids : List Int)
    (tag : List Char) (st : AppState) : AppState :=
  let raw_tag := strTrim tag
  if raw_tag = [] then st
  else
    let tracks_to_update := ids.filterMap st.stores.db
    let r := tracks_to_update.foldl (batch_remove_tag_step fl raw_tag)
      (st.stores.db, st.stores.file, [], [])
    ⟨⟨r.1, r.2.1,
      (if r.2.2.1 = [] then st.stores.gw else flushGw gwFail st.stores.gw r.2.2.1),
      st.stores.gwRating⟩,
     (if r.2.2.2 = [] then st.undoSt else st.undoSt.push ⟨r.2.2.2⟩)⟩

/-- Concrete state for the C3 scenario: one track whose comment encodes
the user comment "club banger" with tags "house" and "peak-time". -/
def c3State : AppState :=
  ⟨⟨fun j => if j = 1
      then some ⟨1, "PID1", "track1.mp3", some ("club banger && house; peak-time".toList), 0⟩
      else none,
    fun _ => [], fun _ => [], fun _ => 0⟩,
   ⟨[], []⟩⟩

/-- C3: starting from `comment_raw = "club banger && house; peak-time"`,
`batch_remove_tag([1], "House")` yields
`comment_raw = "club banger && peak-time"` (case-insensitive removal),
and a subsequent `batch_remove_tag([1], "peak-time")` yields
`comment_raw = "club banger"` with no trailing delimiter. -/
theorem c3_batch_remove_scenario :
    ((batch_remove_tag (fun _ => false) false [1] ("House".toList) c3State).stores.db 1
      |>.map SysTrack.comment_raw) = some (some ("club banger && peak-time".toList)) ∧
    ((batch_remove_tag (fun _ => false) false [1] ("peak-time".toList)
        (batch_remove_tag (fun _ => false) false [1] ("House".toList) c3State)).stores.db 1
      |>.map SysTrack.comment_raw) = some (some ("club banger".toList)) := by
  decide

/-- Concrete state for the C5 counterexample: one track with rating 10. -/
def c5xState : AppState :=
  ⟨⟨fun j => if j = 1 then some ⟨1, "P5", "f5.mp3", none, 10⟩ else none,
    fun _ => [], fun _ => [], fun _ => 0⟩,
   ⟨[], []⟩⟩

/-- C5 counterexample: when the gateway rating call fails, the exposed
rating-update command returns an error and skips its local-store write
(the stored rating stays 10), contradicting the claim that every such
command still performs the local write and returns success on gateway
failure. -/
theorem c5_counterexample :
    (update_rating true 1 80 c5xState).1 =
      Except.error "Failed to update Apple Music rating" ∧
    ((update_rating true 1 80 c5xState).2.stores.db 1 |>.map SysTrack.rating) =
      some 10 :=
  ⟨rfl, by decide⟩

/-- C5 (amended): for the comment-write command a gateway failure is
only logged — the local-store write still happens, the gateway mirror
is left unchanged and the command returns success — but the
rating-update command treats a gateway failure as fatal: it returns the
error and performs no local-store write (the state is unchanged); only
on gateway success does it write the local rating. -/
theorem c5_gateway_failure_policy (st : AppState) (id : Int) (track : SysTrack)
    (hdb : st.stores.db id = some track) (hid : track.id = id)
    (new_tags : List Char) (r : Int) :
    ((write_tags_cmd false true id new_tags st).1 = Except.ok () ∧
     (write_tags_cmd false true id new_tags st).2.stores.db id =
       some { track with comment_raw := some new_tags } ∧
     (write_tags_cmd false true id new_tags st).2.stores.gw = st.stores.gw) ∧
    ((update_rating true id r st).1 =
       Except.error "Failed to update Apple Music rating" ∧
     (update_rating true id r st).2 = st) ∧
    ((update_rating false id r st).1 = Except.ok () ∧
     (update_rating false id r st).2.stores.db id =
       some { track with rating := r }) := by
  subst hid
  refine ⟨⟨?_, ?_, ?_⟩, ⟨?_, ?_⟩, ⟨?_, ?_⟩⟩ <;>
    simp [write_tags_cmd, update_rating, hdb]

theorem c5_gateway_failure_policy_witness :
    ((write_tags_cmd false true 1 ("t".toList) c5xState).1 = Except.ok () ∧
     (write_tags_cmd false true 1 ("t".toList) c5xState).2.stores.db 1 =
       some ⟨1, "P5", "f5.mp3", some ("t".toList), 10⟩ ∧
     (write_tags_cmd false true 1 ("t".toList) c5xState).2.stores.gw =
       c5xState.stores.gw) ∧
    ((update_rating true 1 80 c5xState).1 =
       Except.error "Failed to update Apple Music rating" ∧
     (update_rating true 1 80 c5xState).2 = c5xState) ∧
    ((update_rating false 1 80 c5xState).1 = Except.ok () ∧
     (update_rating false 1 80 c5xState).2.stores.db 1 =
       some ⟨1, "P5", "f5.mp3", none, 80⟩) :=
  c5_gateway_failure_policy c5xState 1 ⟨1, "P5", "f5.mp3", none, 10⟩
    (by decide) (by decide) ("t".toList) 80

/-- Embeds `apple_music::SnapshotEntry`. -/
structure SnapshotEntry where
  persistent_id : String
  rating : Int
  bpm : Int
deriving DecidableEq

/-- Loop body of sync Phase 2 (`commands.rs` lines 544-562): look the
entry's persistent id up in the snapshot the local store returned
before the loop (`Database::get_rating_bpm_snapshot`, absent from
`src/`; modelled from the spec's §6 persistence contract as a
`(persistent_id) -> (rating, bpm)` map); ids the store does not know are
skipped; an update is emitted when the stored rating or bpm differs. -/
def phase2_step (db_snapshot : String → Option (Int × Int))
    (acc : List SnapshotEntry) (entry : SnapshotEntry) : List SnapshotEntry :=
  match db_snapshot entry.persistent_id with
  | some p => if p.1 ≠ entry.rating ∨ p.2 ≠ entry.bpm then acc ++ [entry] else acc
  | none => acc

/-- The local-store updates written by sync Phase 2 (each emitted entry
is an `update_rating_bpm` call). -/
def phase2_updates (snapshot : List SnapshotEntry)
    (db_snapshot : String → Option (Int × Int)) : List SnapshotEntry :=
  snapshot.foldl (phase2_step db_snapshot) []

/-- C6: Phase 2 writes a local-store update exactly for those snapshot
entries whose persistent id the local store already knows and whose
external rating or bpm differs from the stored pair (unknown ids are
skipped); consequently a snapshot in which every known id carries the
stored values produces zero Phase 2 writes. -/
theorem c6_phase2_diff (snapshot : List SnapshotEntry)
    (db_snapshot : String → Option (Int × Int)) :
    phase2_updates snapshot db_snapshot =
      snapshot.filter (fun entry =>
        match db_snapshot entry.persistent_id with
        | some p => decide (p.1 ≠ entry.rating ∨ p.2 ≠ entry.bpm)
        | none => false) ∧
    ((∀ entry ∈ snapshot, ∀ r b, db_snapshot entry.persistent_id = some (r, b) →
        r = entry.rating ∧ b = entry.bpm) →
      phase2_updates snapshot db_snapshot = []) := by
  have key : ∀ (l : List SnapshotEntry) (acc : List SnapshotEntry),
      l.foldl (phase2_step db_snapshot) acc =
        acc ++ l.filter (fun entry =>
          match db_snapshot entry.persistent_id with
          | some p => decide (p.1 ≠ entry.rating ∨ p.2 ≠ entry.bpm)
          | none => false) := by
    intro l
    induction l with
    | nil => intro acc; simp
    | cons e rest ih =>
      intro acc
      rw [List.foldl_cons, List.filter_cons, ih]
      cases hdb : db_snapshot e.persistent_id with
      | none => simp [phase2_step, hdb]
      | some p =>
        by_cases hne : p.1 ≠ e.rating ∨ p.2 ≠ e.bpm <;>
          simp [phase2_step, hdb, hne]
  constructor
  · simpa using key snapshot []
  · intro hall
    rw [show phase2_updates snapshot db_snapshot = _ from by simpa using key snapshot []]
    rw [List.filter_eq_nil_iff]
    intro e he
    cases hdb : db_snapshot e.persistent_id with
    | none => simp
    | some p =>
      obtain ⟨hr, hb⟩ := hall e he p.1 p.2 (by rw [hdb])
      simp [hr, hb]

theorem c6_phase2_diff_witness :
    phase2_updates [⟨"p", 80, 128⟩] (fun _ => some (80, 120)) =
      [(⟨"p", 80, 128⟩ : SnapshotEntry)] ∧
    phase2_updates [⟨"q", 50, 100⟩] (fun _ => some (50, 100)) = [] := by
  constructor
  · rw [(c6_phase2_diff [⟨"p", 80, 128⟩] (fun _ => some (80, 120))).1]
    decide
  · refine (c6_phase2_diff [⟨"q", 50, 100⟩] (fun _ => some (50, 100))).2 ?_
    intro e he r b hrb
    simp only [List.mem_singleton] at he
    subst he
    simp only [Option.some.injEq, Prod.mk.injEq] at hrb
    exact ⟨hrb.1.symm, hrb.2.symm⟩

/-- Embeds `apple_music::PlaylistSnapshotEntry` (playlist names carry
no tag-codec structure, so they stay `String`). -/
structure PlaylistSnapshotEntry where
  persistent_id : String
  parent_persistent_id : Option String
  name : String
  is_folder : Bool
  track_ids : List String
deriving DecidableEq

/-- A row of the local playlist snapshot: (name, folder flag, parent
persistent id, ordered member track persistent ids).  The accessor
`Database::get_playlist_snapshot` is absent from `src/`; modelled from
the spec's §6 persistence contract as an association list keyed by
playlist persistent id. -/
abbrev PlRow := String × Bool × Option String × List String

/-- HashMap `get` over the modelled association list. -/
def lookupRow (db_snapshot : List (String × PlRow)) (pid : String) : Option PlRow :=
  (db_snapshot.find? (fun r => r.1 == pid)).map (fun r => r.2)

/-- Playlists deleted by sync Phase 3 (`commands.rs` lines 593-621):
every locally known persistent id absent from the external snapshot. -/
def phase3_deleted (music_playlists : List PlaylistSnapshotEntry)
    (db_snapshot : List (String × PlRow)) : List String :=
  (db_snapshot.map (fun r => r.1)).filter
    (fun pid => !(music_playlists.any (fun mp => mp.persistent_id == pid)))

/-- Loop body of the upsert half of Phase 3 (`commands.rs` lines
624-667): filter the external member list down to locally known track
ids, then upsert when the playlist is new or its name, folder flag,
parent or filtered ordered track list differs from the stored row. -/
def phase3_upsert_step (db_snapshot : List (String × PlRow))
    (all_track_pids : List String)
    (acc : List PlaylistSnapshotEntry) (mp : PlaylistSnapshotEntry) :
    List PlaylistSnapshotEntry :=
  let filtered_track_ids := mp.track_ids.filter (fun tid => all_track_pids.contains tid)
  let needs_upsert :=
    match lookupRow db_snapshot mp.persistent_id with
    | none => true
    | some r => (r.1 != mp.name) || (r.2.1 != mp.is_folder) ||
        (r.2.2.1 != mp.parent_persistent_id) || (r.2.2.2 != filtered_track_ids)
  if needs_upsert then acc ++ [{ mp with track_ids := filtered_track_ids }] else acc

/-- The playlist upserts written by sync Phase 3. -/
def phase3_upserts (music_playlists : List PlaylistSnapshotEntry)
    (db_snapshot : List (String × PlRow)) (all_track_pids : List String) :
    List PlaylistSnapshotEntry :=
  music_playlists.foldl (phase3_upsert_step db_snapshot all_track_pids) []

/-- Upsert condition in the spec's words: the playlist is locally
unknown, or its name, folder flag, parent or filtered ordered member
list differs from the stored snapshot row. -/
def needsUpsertSpec (db_snapshot : List (String × PlRow))
    (all_track_pids : List String) (mp : PlaylistSnapshotEntry) : Prop :=
  match lookupRow db_snapshot mp.persistent_id with
  | none => True
  | some r => r.1 ≠ mp.name ∨ r.2.1 ≠ mp.is_folder ∨
      r.2.2.1 ≠ mp.parent_persistent_id ∨
      r.2.2.2 ≠ mp.track_ids.filter (fun tid => all_track_pids.contains tid)

instance (db_snapshot : List (String × PlRow)) (all_track_pids : List String)
    (mp : PlaylistSnapshotEntry) :
    Decidable (needsUpsertSpec db_snapshot all_track_pids mp) := by
  unfold needsUpsertSpec
  cases lookupRow db_snapshot mp.persistent_id <;> infer_instance

/-- C7: Phase 3 deletes exactly the locally known playlists absent from
the external snapshot; it upserts exactly the external playlists whose
stored row is missing or differs in name, folder flag, parent, or the
ordered member list filtered to locally known ids; an unchanged
playlist causes no write and the member-list comparison is ordered, so
a stored row whose member list is a mere permutation of the incoming
filtered list still triggers an upsert. -/
theorem c7_phase3_diff (music_playlists : List PlaylistSnapshotEntry)
    (db_snapshot : List (String × PlRow)) (all_track_pids : List String) :
    (∀ pid, pid ∈ phase3_deleted music_playlists db_snapshot ↔
      (pid ∈ db_snapshot.map (fun r => r.1) ∧
        ∀ mp ∈ music_playlists, mp.persistent_id ≠ pid)) ∧
    phase3_upserts music_playlists db_snapshot all_track_pids =
      (music_playlists.filter
          (fun mp => decide (needsUpsertSpec db_snapshot all_track_pids mp))).map
        (fun mp => { mp with
          track_ids := mp.track_ids.filter (fun tid => all_track_pids.contains tid) }) ∧
    ((∀ mp ∈ music_playlists, lookupRow db_snapshot mp.persistent_id =
        some (mp.name, mp.is_folder, mp.parent_persistent_id,
          mp.track_ids.filter (fun tid => all_track_pids.contains tid))) →
      phase3_upserts music_playlists db_snapshot all_track_pids = []) ∧
    (∀ mp ∈ music_playlists, ∀ r : PlRow,
      lookupRow db_snapshot mp.persistent_id = some r →
      r.2.2.2.Perm (mp.track_ids.filter (fun tid => all_track_pids.contains tid)) →
      r.2.2.2 ≠ mp.track_ids.filter (fun tid => all_track_pids.contains tid) →
      { mp with track_ids := mp.track_ids.filter (fun tid => all_track_pids.contains tid) }
        ∈ phase3_upserts music_playlists db_snapshot all_track_pids) := by
  have hcond : ∀ mp : PlaylistSnapshotEntry,
      ((match lookupRow db_snapshot mp.persistent_id with
        | none => true
        | some r => (r.1 != mp.name) || (r.2.1 != mp.is_folder) ||
            (r.2.2.1 != mp.parent_persistent_id) ||
            (r.2.2.2 != mp.track_ids.filter (fun tid => all_track_pids.contains tid))) = true) ↔
      needsUpsertSpec db_snapshot all_track_pids mp := by
    intro mp
    unfold needsUpsertSpec
    rcases hlk : lookupRow db_snapshot mp.persistent_id with _ | r <;>
      simp [hlk, or_assoc]
  have key : ∀ (l : List PlaylistSnapshotEntry) (acc : List PlaylistSnapshotEntry),
      l.foldl (phase3_upsert_step db_snapshot all_track_pids) acc =
        acc ++ (l.filter
            (fun mp => decide (needsUpsertSpec db_snapshot all_track_pids mp))).map
          (fun mp => { mp with
            track_ids := mp.track_ids.filter (fun tid => all_track_pids.contains tid) }) := by
    intro l
    induction l with
    | nil => intro acc; simp
    | cons mp rest ih =>
      intro acc
      rw [List.foldl_cons, List.filter_cons, ih]
      by_cases hmp : needsUpsertSpec db_snapshot all_track_pids mp
      · have hb := (hcond mp).mpr hmp
        simp only [phase3_upsert_step, hb, if_true, hmp, decide_true_eq_true]
        simp [hmp]
      · have hb : (match lookupRow db_snapshot mp.persistent_id with
          | none => true
          | some r => (r.1 != mp.name) || (r.2.1 != mp.is_folder) ||
              (r.2.2.1 != mp.parent_persistent_id) ||
              (r.2.2.2 != mp.track_ids.filter (fun tid => all_track_pids.contains tid))) = false := by
          rw [Bool.eq_false_iff]
          intro hcontra
          exact hmp ((hcond mp).mp hcontra)
        simp only [phase3_upsert_step, hb]
        simp [hmp]
  have hupserts : phase3_upserts music_playlists db_snapshot all_track_pids =
      (music_playlists.filter
          (fun mp => decide (needsUpsertSpec db_snapshot all_track_pids mp))).map
        (fun mp => { mp with
          track_ids := mp.track_ids.filter (fun tid => all_track_pids.contains tid) }) := by
    simpa using key music_playlists []
  refine ⟨?_, hupserts, ?_, ?_⟩
  · intro pid
    simp [phase3_deleted, List.mem_filter, List.any_eq_true]
  · intro hall
    rw [hupserts]
    have : music_playlists.filter
        (fun mp => decide (needsUpsertSpec db_snapshot all_track_pids mp)) = [] := by
      rw [List.filter_eq_nil_iff]
      intro mp hmp
      have heq := hall mp hmp
      simp only [decide_eq_true_eq]
      intro hcontra
      unfold needsUpsertSpec at hcontra
      rw [heq] at hcontra
      simp at hcontra
    rw [this, List.map_nil]
  · intro mp hmp r hr hperm hne
    rw [hupserts]
    refine List.mem_map.mpr ⟨mp, List.mem_filter.mpr ⟨hmp, ?_⟩, rfl⟩
    simp only [decide_eq_true_eq]
    unfold needsUpsertSpec
    rw [hr]
    exact Or.inr (Or.inr (Or.inr hne))

theorem c7_phase3_diff_witness :
    phase3_upserts [⟨"pl1", none, "Main", false, ["t1", "t2"]⟩]
      [("pl1", ("Main", false, none, ["t1", "t2"]))] ["t1", "t2", "t3"] = [] ∧
    (⟨"pl1", none, "Main", false, ["t1", "t2"]⟩ : PlaylistSnapshotEntry) ∈
      phase3_upserts [⟨"pl1", none, "Main", false, ["t1", "t2"]⟩]
        [("pl1", ("Main", false, none, ["t2", "t1"]))] ["t1", "t2", "t3"] := by
  constructor
  · exact (c7_phase3_diff [⟨"pl1", none, "Main", false, ["t1", "t2"]⟩]
      [("pl1", ("Main", false, none, ["t1", "t2"]))] ["t1", "t2", "t3"]).2.2.1
      (by decide)
  · have := (c7_phase3_diff [⟨"pl1", none, "Main", false, ["t1", "t2"]⟩]
      [("pl1", ("Main", false, none, ["t2", "t1"]))] ["t1", "t2", "t3"]).2.2.2
      ⟨"pl1", none, "Main", false, ["t1", "t2"]⟩ (by decide)
      ("Main", false, none, ["t2", "t1"]) (by decide) (by decide) (by decide)
    simpa using this

/-- A row of the `tags` table: name (`TEXT UNIQUE COLLATE NOCASE`) and
usage count; the `id` and `group_id` columns are never touched by
`sync_tags`'s upsert and are omitted. -/
structure TagRow where
  name : List Char
  usage_count : Int
deriving DecidableEq

/-- The decoded tag occurrences of all tracks' comments in track order
(`db.rs::sync_tags` lines 451-463; the parse there is character for
character the one embedded by `decodeComment`). -/
def allTagOccurrences (comments : List (Option (List Char))) : List (List Char) :=
  (comments.map (fun c =>
    match c with
    | some raw => (decodeComment raw).2
    | none => [])).flatten

/-- First-occurrence deduplication, standing in for iterating the
`tag_counts` HashMap's keys (`db.rs` lines 465-471; the map's iteration
order is unspecified, and the properties proved below are insensitive
to it under their no-case-collision hypothesis). -/
def dedupFirst : List (List Char) → List (List Char)
  | [] => []
  | a :: rest => a :: (dedupFirst rest).filter (fun x => x ≠ a)

/-- Embeds one `INSERT INTO tags (name, usage_count) VALUES (?1, ?2)
ON CONFLICT(name) DO UPDATE SET usage_count = ?3` against the NOCASE
unique name column (`db.rs` lines 466-470): when some row's name
matches up to ASCII case the conflict arm updates its count, otherwise
a fresh row is appended. -/
def upsertTagRow (table : List TagRow) (name : List Char) (c : Int) : List TagRow :=
  if table.any (fun r => toLowerList r.name == toLowerList name) then
    table.map (fun r =>
      if toLowerList r.name == toLowerList name then { r with usage_count := c } else r)
  else table ++ [⟨name, c⟩]

/-- Case-insensitive row lookup (the NOCASE unique index). -/
def findNocase (table : List TagRow) (name : List Char) : Option TagRow :=
  table.find? (fun r => toLowerList r.name == toLowerList name)

/-- Embeds `Database::sync_tags` (`db.rs` lines 447-474): recount every
decoded tag occurrence across all tracks, then upsert one row per
distinct occurring name with its count.  Rows whose names do not occur
are never visited. -/
def sync_tags_table (table : List TagRow) (comments : List (Option (List Char))) :
    List TagRow :=
  let occ := allTagOccurrences comments
  (dedupFirst occ).foldl (fun tb name => upsertTagRow tb name (occ.count name : Int)) table

theorem mem_dedupFirst : ∀ (l : List (List Char)) (a : List Char),
    a ∈ dedupFirst l ↔ a ∈ l := by
  intro l
  induction l with
  | nil => intro a; simp [dedupFirst]
  | cons x rest ih =>
    intro a
    rw [dedupFirst]
    by_cases hax : a = x
    · simp [hax]
    · simp [hax, List.mem_filter, ih a]

theorem findNocase_upsert_self (tb : List TagRow) (n : List Char) (c : Int) :
    ∃ r, findNocase (upsertTagRow tb n c) n = some r ∧ r.usage_count = c := by
  unfold upsertTagRow findNocase
  by_cases hany : tb.any (fun r => toLowerList r.name == toLowerList n)
  · rw [if_pos hany, List.find?_map]
    have hpf : ((fun r : TagRow => toLowerList r.name == toLowerList n) ∘
        (fun r => if toLowerList r.name == toLowerList n
          then { r with usage_count := c } else r)) =
        fun r : TagRow => toLowerList r.name == toLowerList n := by
      funext r
      by_cases hr : toLowerList r.name == toLowerList n <;>
        simp [Function.comp, hr]
    rw [hpf]
    have hsome : (tb.find? (fun r => toLowerList r.name == toLowerList n)).isSome := by
      rw [List.find?_isSome]
      simpa [List.any_eq_true] using hany
    obtain ⟨r₀, hr₀⟩ := Option.isSome_iff_exists.mp hsome
    have hp₀ := List.find?_some hr₀
    simp only [beq_iff_eq] at hp₀
    refine ⟨{ r₀ with usage_count := c }, ?_, rfl⟩
    rw [hr₀]
    simp [hp₀]
  · rw [if_neg hany, List.find?_append]
    have hnone : tb.find? (fun r => toLowerList r.name == toLowerList n) = none := by
      rw [List.find?_eq_none]
      intro x hx hpx
      exact hany (List.any_eq_true.mpr ⟨x, hx, hpx⟩)
    rw [hnone]
    exact ⟨⟨n, c⟩, by simp [List.find?], rfl⟩

theorem findNocase_upsert_ne (tb : List TagRow) {n m : List Char} (c : Int)
    (h : toLowerList m ≠ toLowerList n) :
    findNocase (upsertTagRow tb n c) m = findNocase tb m := by
  unfold upsertTagRow findNocase
  by_cases hany : tb.any (fun r => toLowerList r.name == toLowerList n)
  · rw [if_pos hany, List.find?_map]
    have hpf : ((fun r : TagRow => toLowerList r.name == toLowerList m) ∘
        (fun r => if toLowerList r.name == toLowerList n
          then { r with usage_count := c } else r)) =
        fun r : TagRow => toLowerList r.name == toLowerList m := by
      funext r
      by_cases hr : toLowerList r.name == toLowerList n <;>
        simp [Function.comp, hr]
    rw [hpf]
    rcases hf : tb.find? (fun r => toLowerList r.name == toLowerList m) with _ | r₀ <;>
      rw [hf]
    · rfl
    · have hp₀ := List.find?_some hf
      simp only [beq_iff_eq] at hp₀
      have hne : ¬ toLowerList r₀.name = toLowerList n := by
        rw [hp₀]
        exact h
      simp [hne]
  · rw [if_neg hany, List.find?_append]
    have hlast : List.find? (fun r : TagRow => toLowerList r.name == toLowerList m)
        [⟨n, c⟩] = none := by
      simp only [List.find?_eq_none]
      intro x hx
      simp only [List.mem_singleton] at hx
      subst hx
      simp only [beq_iff_eq]
      exact fun hc => h hc.symm
    rw [hlast]
    simp

theorem mem_upsert_of_ne {tb : List TagRow} {r : TagRow} (hr : r ∈ tb)
    (n : List Char) (c : Int) (h : toLowerList r.name ≠ toLowerList n) :
    r ∈ upsertTagRow tb n c := by
  unfold upsertTagRow
  by_cases hany : tb.any (fun x => toLowerList x.name == toLowerList n)
  · rw [if_pos hany]
    refine List.mem_map.mpr ⟨r, hr, ?_⟩
    rw [if_neg]
    simp only [beq_iff_eq]
    exact h
  · rw [if_neg hany]
    exact List.mem_append_left _ hr

theorem findNocase_fold_preserved (g : List Char → Int) :
    ∀ (ns : List (List Char)) (tb : List TagRow) (n : List Char),
      (∀ k ∈ ns, toLowerList k = toLowerList n → k = n) →
      (∃ r, findNocase tb n = some r ∧ r.usage_count = g n) →
      ∃ r, findNocase (ns.foldl (fun t m => upsertTagRow t m (g m)) tb) n = some r ∧
        r.usage_count = g n := by
  intro ns
  induction ns with
  | nil => intro tb n _ h; exact h
  | cons m rest ih =>
    intro tb n hk hP
    rw [List.foldl_cons]
    refine ih _ n (fun k hk' e => hk k (by simp [hk']) e) ?_
    by_cases hmn : toLowerList m = toLowerList n
    · have heq : m = n := hk m (by simp) hmn
      subst heq
      exact findNocase_upsert_self tb m (g m)
    · obtain ⟨r, hr, hc⟩ := hP
      refine ⟨r, ?_, hc⟩
      rw [findNocase_upsert_ne tb (g m) (fun e => hmn e.symm)]
      exact hr

theorem findNocase_fold_mem (g : List Char → Int) :
    ∀ (ns : List (List Char)) (tb : List TagRow) (n : List Char), n ∈ ns →
      (∀ a ∈ ns, ∀ b ∈ ns, toLowerList a = toLowerList b → a = b) →
      ∃ r, findNocase (ns.foldl (fun t m => upsertTagRow t m (g m)) tb) n = some r ∧
        r.usage_count = g n := by
  intro ns
  induction ns with
  | nil => intro tb n hn; cases hn
  | cons m rest ih =>
    intro tb n hn hpair
    rw [List.foldl_cons]
    rcases List.mem_cons.mp hn with heq | hmem
    · subst heq
      exact findNocase_fold_preserved g rest _ n
        (fun k hk e => hpair k (by simp [hk]) n (by simp) e)
        (findNocase_upsert_self tb n (g n))
    · exact ih _ n hmem
        (fun a ha b hb e => hpair a (by simp [ha]) b (by simp [hb]) e)

theorem mem_fold_stale (g : List Char → Int) :
    ∀ (ns : List (List Char)) (tb : List TagRow) (r : TagRow), r ∈ tb →
      (∀ n ∈ ns, toLowerList r.name ≠ toLowerList n) →
      r ∈ ns.foldl (fun t m => upsertTagRow t m (g m)) tb := by
  intro ns
  induction ns with
  | nil => intro tb r hr _; exact hr
  | cons m rest ih =>
    intro tb r hr hstale
    rw [List.foldl_cons]
    exact ih _ r (mem_upsert_of_ne hr m (g m) (hstale m (by simp)))
      (fun n hn => hstale n (by simp [hn]))

/-- C9 (amended): after `sync_tags`, for every tag name occurring in
the decoded tag lists of the current comments (provided no two distinct
occurring names collide up to case, where the NOCASE unique index makes
the surviving count depend on HashMap iteration order), the
case-insensitive matching row carries exactly the occurrence count; but
rows whose names no longer occur anywhere are never visited and keep
their previous — possibly stale nonzero — counts, so the table is not
a pure function of the current comments. -/
theorem c9_sync_tags_recount (table : List TagRow)
    (comments : List (Option (List Char)))
    (hocc : ∀ a ∈ allTagOccurrences comments, ∀ b ∈ allTagOccurrences comments,
      toLowerList a = toLowerList b → a = b) :
    (∀ name ∈ allTagOccurrences comments,
      ∃ r, findNocase (sync_tags_table table comments) name = some r ∧
        r.usage_count = ((allTagOccurrences comments).count name : Int)) ∧
    (∀ r ∈ table, (∀ name ∈ allTagOccurrences comments,
        toLowerList r.name ≠ toLowerList name) →
      r ∈ sync_tags_table table comments) := by
  constructor
  · intro name hname
    exact findNocase_fold_mem (fun m => ((allTagOccurrences comments).count m : Int))
      (dedupFirst (allTagOccurrences comments)) table name
      ((mem_dedupFirst _ name).mpr hname)
      (fun a ha b hb e =>
        hocc a ((mem_dedupFirst _ a).mp ha) b ((mem_dedupFirst _ b).mp hb) e)
  · intro r hr hstale
    exact mem_fold_stale (fun m => ((allTagOccurrences comments).count m : Int))
      (dedupFirst (allTagOccurrences comments)) table r hr
      (fun n hn => hstale n ((mem_dedupFirst _ n).mp hn))

/-- C9 counterexample: a stored row ("house", 3) whose tag no longer
occurs in any track's comment survives `sync_tags` with its stale
nonzero count, while the occurrence count of "house" in the current
comments is 0 — the stored counts are not a pure function of the
current track comments. -/
theorem c9_counterexample :
    sync_tags_table [⟨"house".toList, 3⟩] [some ("great track".toList)] =
      [⟨"house".toList, 3⟩] ∧
    ((allTagOccurrences [some ("great track".toList)]).count ("house".toList) : Int) =
      0 := by
  decide

theorem c9_sync_tags_recount_witness :
    (∃ r, findNocase (sync_tags_table [⟨"old".toList, 7⟩]
        [some (" && house; techno".toList), some (" && house".toList)])
        ("house".toList) = some r ∧
      r.usage_count = ((allTagOccurrences
        [some (" && house; techno".toList), some (" && house".toList)]).count
          ("house".toList) : Int)) ∧
    (⟨"old".toList, 7⟩ : TagRow) ∈ sync_tags_table [⟨"old".toList, 7⟩]
      [some (" && house; techno".toList), some (" && house".toList)] :=
  ⟨(c9_sync_tags_recount [⟨"old".toList, 7⟩]
      [some (" && house; techno".toList), some (" && house".toList)]
      (by decide)).1 ("house".toList) (by decide),
   (c9_sync_tags_recount [⟨"old".toList, 7⟩]
      [some (" && house; techno".toList), some (" && house".toList)]
      (by decide)).2 ⟨"old".toList, 7⟩ (by decide) (by decide)⟩

theorem strTrim_cons_space (l : List Char) : strTrim (' ' :: l) = strTrim l := by
  unfold strTrim
  rw [List.dropWhile_cons, if_pos (by decide)]

theorem dropWhile_ws_idem (l : List Char) :
    (l.dropWhile Char.isWhitespace).dropWhile Char.isWhitespace =
      l.dropWhile Char.isWhitespace :=
  List.dropWhile_idempotent Char.isWhitespace l

theorem trimRight_prefix (m : List Char) :
    ((m.reverse.dropWhile Char.isWhitespace).reverse) <+: m := by
  have hsfx : m.reverse.dropWhile Char.isWhitespace <:+ m.reverse :=
    List.dropWhile_suffix _
  have := List.reverse_prefix.mpr hsfx
  simpa using this

theorem head?_dropWhile_ws (l : List Char) :
    ∀ b, (l.dropWhile Char.isWhitespace).head? = some b → b.isWhitespace = false := by
  induction l with
  | nil => intro b hb; cases hb
  | cons a rest ih =>
    intro b hb
    rw [List.dropWhile_cons] at hb
    by_cases ha : a.isWhitespace
    · rw [if_pos ha] at hb
      exact ih b hb
    · rw [if_neg ha] at hb
      cases hb
      simpa using ha

theorem dropWhile_ws_of_head (l : List Char)
    (h : ∀ b, l.head? = some b → b.isWhitespace = false) :
    l.dropWhile Char.isWhitespace = l := by
  cases l with
  | nil => rfl
  | cons a rest =>
    rw [List.dropWhile_cons, if_neg]
    simpa using h a rfl

theorem strTrim_idem (l : List Char) : strTrim (strTrim l) = strTrim l := by
  show ((((((l.dropWhile Char.isWhitespace).reverse.dropWhile
      Char.isWhitespace).reverse).dropWhile Char.isWhitespace).reverse.dropWhile
      Char.isWhitespace).reverse) = _
  have h1 : (l.dropWhile Char.isWhitespace).dropWhile Char.isWhitespace =
      l.dropWhile Char.isWhitespace := dropWhile_ws_idem l
  have h2 : ((((l.dropWhile Char.isWhitespace).reverse.dropWhile
      Char.isWhitespace).reverse).dropWhile Char.isWhitespace) =
      (((l.dropWhile Char.isWhitespace).reverse.dropWhile
        Char.isWhitespace).reverse) := by
    apply dropWhile_ws_of_head
    intro b hb
    set m := l.dropWhile Char.isWhitespace with hm
    have hpre : ((m.reverse.dropWhile Char.isWhitespace).reverse) <+: m :=
      trimRight_prefix m
    rcases hcase : (m.reverse.dropWhile Char.isWhitespace).reverse with _ | ⟨c, cs⟩
    · rw [hcase] at hb; cases hb
    · rw [hcase] at hb hpre
      cases hb
      obtain ⟨t, ht⟩ := hpre
      have hhead : m.head? = some b := by rw [← ht]; rfl
      have := head?_dropWhile_ws l b (by rw [← hm] at *; rw [hm] at hhead ⊢; exact hhead)
      exact this
  rw [h2, List.reverse_reverse, dropWhile_ws_idem]
  rfl

theorem mem_strTrim {a : Char} {l : List Char} (h : a ∈ strTrim l) : a ∈ l := by
  unfold strTrim at h
  have h1 := List.mem_reverse.mp h
  have h2 := (List.dropWhile_suffix _).subset h1
  have h3 := List.mem_reverse.mp h2
  exact (List.dropWhile_suffix _).subset h3

theorem splitSemi_ne_nil : ∀ l : List Char, splitSemi l ≠ [] := by
  intro l
  induction l with
  | nil => simp [splitSemi]
  | cons c rest ih =>
    rw [splitSemi]
    by_cases hc : c = ';'
    · simp [hc]
    · rw [if_neg hc]
      rcases hsp : splitSemi rest with _ | ⟨p, ps⟩
      · exact absurd hsp ih
      · simp

theorem splitSemi_no_semi : ∀ l : List Char, ';' ∉ l → splitSemi l = [l] := by
  intro l
  induction l with
  | nil => intro _; rfl
  | cons c rest ih =>
    intro h
    have hc : c ≠ ';' := fun e => h (by simp [e])
    have hrest : ';' ∉ rest := fun e => h (by simp [e])
    rw [splitSemi, if_neg hc, ih hrest]

theorem splitSemi_append_semi : ∀ (t z : List Char), ';' ∉ t →
    splitSemi (t ++ ';' :: z) = t :: splitSemi z := by
  intro t
  induction t with
  | nil => intro z _; simp [splitSemi]
  | cons c t' ih =>
    intro z h
    have hc : c ≠ ';' := fun e => h (by simp [e])
    have ht' : ';' ∉ t' := fun e => h (by simp [e])
    rw [List.cons_append, splitSemi, if_neg hc, ih z ht']

theorem mem_splitSemi_no_semi : ∀ (l : List Char) (p : List Char),
    p ∈ splitSemi l → ';' ∉ p := by
  intro l
  induction l with
  | nil =>
    intro p hp
    simp [splitSemi] at hp
    simp [hp]
  | cons c rest ih =>
    intro p hp
    rw [splitSemi] at hp
    by_cases hc : c = ';'
    · rw [if_pos hc] at hp
      rcases List.mem_cons.mp hp with h | h
      · simp [h]
      · exact ih p h
    · rw [if_neg hc] at hp
      rcases hsp : splitSemi rest with _ | ⟨q, qs⟩
      · exact absurd hsp (splitSemi_ne_nil rest)
      · rw [hsp] at hp
        rcases List.mem_cons.mp hp with h | h
        · subst h
          intro hmem
          rcases List.mem_cons.mp hmem with h' | h'
          · exact hc h'.symm
          · exact ih q (by rw [hsp]; simp) h'
        · exact ih p (by rw [hsp]; simp [h])

theorem parseTags_props : ∀ (b : List Char) (t : List Char), t ∈ parseTags b →
    t ≠ [] ∧ strTrim t = t ∧ ';' ∉ t := by
  intro b t ht
  unfold parseTags at ht
  obtain ⟨ht', hne⟩ := List.mem_filter.mp ht
  obtain ⟨p, hp, hpt⟩ := List.mem_map.mp ht'
  refine ⟨by simpa using hne, ?_, ?_⟩
  · rw [← hpt, strTrim_idem]
  · rw [← hpt]
    intro hmem
    exact mem_splitSemi_no_semi b p hp (mem_strTrim hmem)

theorem decodeComment_tags_props (raw : List Char) :
    ∀ t ∈ (decodeComment raw).2, t ≠ [] ∧ strTrim t = t ∧ ';' ∉ t := by
  intro t ht
  unfold decodeComment at ht
  rcases hsp : splitOnFirst DELIM raw with _ | ⟨u, b⟩
  · rw [hsp] at ht; cases ht
  · rw [hsp] at ht
    exact parseTags_props b t ht

theorem splitSemi_join : ∀ (t : List Char) (rest : List (List Char)),
    (∀ x ∈ t :: rest, ';' ∉ x) →
    splitSemi (joinTags (t :: rest)) = t :: rest.map (fun x => ' ' :: x) := by
  intro t rest
  induction rest generalizing t with
  | nil =>
    intro h
    rw [joinTags, splitSemi_no_semi t (h t (by simp))]
    rfl
  | cons r rest' ih =>
    intro h
    have hj : joinTags (t :: r :: rest') = t ++ ';' :: ' ' :: joinTags (r :: rest') := by
      show t ++ [';', ' '] ++ joinTags (r :: rest') = _
      rw [List.append_assoc]
      rfl
    rw [hj, splitSemi_append_semi t (' ' :: joinTags (r :: rest')) (h t (by simp))]
    have := ih r (fun x hx => h x (by simpa using Or.inr hx))
    rw [show (' ' :: joinTags (r :: rest') : List Char) =
      ' ' :: joinTags (r :: rest') from rfl]
    rw [show splitSemi (' ' :: joinTags (r :: rest')) =
        (' ' :: r) :: rest'.map (fun x => ' ' :: x) from by
      rw [splitSemi, if_neg (by decide), this]]
    simp

theorem parseTags_join : ∀ (ts : List (List Char)), ts ≠ [] →
    (∀ x ∈ ts, x ≠ [] ∧ strTrim x = x ∧ ';' ∉ x) →
    parseTags (joinTags ts) = ts := by
  intro ts hne h
  rcases ts with _ | ⟨t, rest⟩
  · exact absurd rfl hne
  unfold parseTags
  rw [splitSemi_join t rest (fun x hx => (h x hx).2.2)]
  rw [List.map_cons, List.map_map]
  have hmap : rest.map (strTrim ∘ fun x => ' ' :: x) = rest.map id := by
    apply List.map_congr_left
    intro x hx
    show strTrim (' ' :: x) = x
    rw [strTrim_cons_space]
    exact (h x (by simp [hx])).2.1
  rw [hmap, List.map_id, (h t (by simp)).2.1]
  rw [List.filter_cons, if_pos (by simpa using (h t (by simp)).1)]
  congr 1
  rw [List.filter_eq_self]
  intro x hx
  simpa using (h x (by simp [hx])).1

theorem joinTags_ne_nil (t : List Char) (rest : List (List Char)) (ht : t ≠ []) :
    joinTags (t :: rest) ≠ [] := by
  cases rest with
  | nil => exact ht
  | cons r rest' =>
    show t ++ [';', ' '] ++ joinTags (r :: rest') ≠ []
    simp [ht]

theorem encodeComment_eq (user : List Char) (ts : List (List Char))
    (hts : joinTags ts ≠ []) :
    encodeComment user ts = user ++ DELIM ++ joinTags ts := by
  unfold encodeComment
  rw [if_pos hts]
  by_cases hu : user = []
  · subst hu
    rw [if_pos rfl]
    simp
  · rw [if_neg hu]

theorem delim_isPrefixOf_congr {l₁ l₂ : List Char} (h : l₁.take 4 = l₂.take 4) :
    (DELIM.isPrefixOf l₁ = true) ↔ (DELIM.isPrefixOf l₂ = true) := by
  rw [List.isPrefixOf_iff_prefix, List.isPrefixOf_iff_prefix,
    List.prefix_iff_eq_take, List.prefix_iff_eq_take,
    show DELIM.length = 4 from rfl, h]

theorem take4_boundary (u b : List Char) (hu : u ≠ []) :
    ((u ++ DELIM ++ b).take 4) = ((u ++ [' ', '&', '&']).take 4) := by
  rw [List.append_assoc]
  simp only [List.take_append_eq_append_take]
  congr 1
  have hk : 4 - u.length ≤ 3 := by
    have := List.length_pos.mpr hu
    omega
  have hz : 4 - u.length - DELIM.length = 0 := by
    rw [show DELIM.length = 4 from rfl]
    omega
  rw [hz, List.take_zero, List.append_nil]
  rw [show ([' ', '&', '&'] : List Char) = DELIM.take 3 from rfl, List.take_take]
  rw [inf_eq_left.mpr hk]

theorem splitOnFirst_boundary : ∀ (user b : List Char),
    containsSeq DELIM (user ++ [' ', '&', '&']) = false →
    splitOnFirst DELIM (user ++ DELIM ++ b) = some (user, b) := by
  intro user
  induction user with
  | nil =>
    intro b _
    show splitOnFirst DELIM (' ' :: '&' :: '&' :: ' ' :: b) = some ([], b)
    rw [splitOnFirst, if_pos]
    · rfl
    · exact List.isPrefixOf_iff_prefix.mpr (List.prefix_append DELIM b)
  | cons c u' ih =>
    intro b hni
    have hni' : containsSeq DELIM (c :: (u' ++ [' ', '&', '&'])) = false := hni
    rw [containsSeq, Bool.or_eq_false_iff] at hni'
    obtain ⟨h1, h2⟩ := hni'
    have htr := delim_isPrefixOf_congr (take4_boundary (c :: u') b (by simp))
    have hnp : ¬ (DELIM.isPrefixOf (c :: (u' ++ DELIM ++ b)) = true) := by
      intro hp
      have h3 := htr.mp hp
      rw [List.cons_append] at h3
      rw [h3] at h1
      cases h1
    show splitOnFirst DELIM (c :: (u' ++ DELIM ++ b)) = some (c :: u', b)
    rw [splitOnFirst, if_neg hnp, ih b h2]

/-- Round trip through the comment codec: a re-encoded comment decodes
back to the same user comment and tag list, provided the tags are
nonempty, trimmed and semicolon-free, and the user comment does not
recreate an earlier delimiter occurrence (no `" && "` inside
`user ++ " &&"`). -/
theorem decode_encode (user : List Char) (ts : List (List Char))
    (hu : containsSeq DELIM (user ++ [' ', '&', '&']) = false)
    (hts : ∀ x ∈ ts, x ≠ [] ∧ strTrim x = x ∧ ';' ∉ x)
    (hne : ts ≠ []) :
    decodeComment (encodeComment user ts) = (user, ts) := by
  rcases ts with _ | ⟨t, rest⟩
  · exact absurd rfl hne
  have hjoin : joinTags (t :: rest) ≠ [] :=
    joinTags_ne_nil t rest (hts t (by simp)).1
  rw [encodeComment_eq user (t :: rest) hjoin]
  unfold decodeComment
  rw [splitOnFirst_boundary user (joinTags (t :: rest)) hu]
  show (user, parseTags (joinTags (t :: rest))) = (user, t :: rest)
  rw [parseTags_join (t :: rest) (by simp) hts]

/-- The case-insensitive membership guard of `batch_add_tag`
(`commands.rs` line 236). -/
def tagGuard (rt : List Char) (tr : SysTrack) : Bool :=
  (decodeComment (tr.comment_raw.getD [])).2.any
    (fun t => toLowerList t = toLowerList rt)

/-- The comment `batch_add_tag` writes for a track it updates. -/
def addNewComment (rt : List Char) (tr : SysTrack) : List Char :=
  encodeComment (decodeComment (tr.comment_raw.getD [])).1
    ((decodeComment (tr.comment_raw.getD [])).2 ++ [rt])

/-- The track row after `batch_add_tag` updates it. -/
def addUpdated (rt : List Char) (tr : SysTrack) : SysTrack :=
  { tr with comment_raw := some (addNewComment rt tr) }

/-- Primary-key consistency of a fetched row: `get_track(i)` returns a
row whose id column is `i`. -/
def wellKeyed (i : Int) : Option SysTrack → Bool
  | none => true
  | some tr => tr.id == i

/-- The tag is already present (up to case) on the row, if any. -/
def tagPresentOpt (rt : List Char) : Option SysTrack → Bool
  | none => true
  | some tr => tagGuard rt tr

/-- The row's user-comment part does not recreate an earlier delimiter
occurrence when re-encoded (the documented misparse limitation). -/
def userPartOk : Option SysTrack → Bool
  | none => true
  | some tr =>
    !(containsSeq DELIM ((decodeComment (tr.comment_raw.getD [])).1 ++ [' ', '&', '&']))

theorem batch_add_tag_step_guarded {fl : String → Bool} {rt : List Char}
    {u : SysTrack} (hu : tagGuard rt u = true)
    (acc : (Int → Option SysTrack) × (String → List Char) ×
      List (String × List Char) × List TrackState) :
    batch_add_tag_step fl rt acc u = acc := by
  unfold tagGuard at hu
  simp only [batch_add_tag_step]
  rw [if_pos hu]

theorem batch_add_tag_step_unguarded {rt : List Char}
    {u : SysTrack} (hu : tagGuard rt u = false)
    (acc : (Int → Option SysTrack) × (String → List Char) ×
      List (String × List Char) × List TrackState) :
    batch_add_tag_step (fun _ => false) rt acc u =
      (Function.update acc.1 u.id (some (addUpdated rt u)),
       Function.update acc.2.1 u.file_path (addNewComment rt u),
       (if u.persistent_id.isEmpty then acc.2.2.1
        else acc.2.2.1 ++ [(u.persistent_id, addNewComment rt u)]),
       acc.2.2.2 ++ [⟨u.id, u.persistent_id, u.file_path,
         u.comment_raw.getD [], addNewComment rt u⟩]) := by
  unfold tagGuard at hu
  simp only [batch_add_tag_step, addNewComment, addUpdated]
  rw [if_neg (by rw [hu]; exact Bool.false_ne_true)]
  simp

theorem addFold_guarded (fl : String → Bool) (rt : List Char) :
    ∀ (l : List SysTrack)
      (acc : (Int → Option SysTrack) × (String → List Char) ×
        List (String × List Char) × List TrackState),
      (∀ tr ∈ l, tagGuard rt tr = true) →
      l.foldl (batch_add_tag_step fl rt) acc = acc := by
  intro l
  induction l with
  | nil => intro acc _; rfl
  | cons u rest ih =>
    intro acc hall
    rw [List.foldl_cons, batch_add_tag_step_guarded (hall u (by simp))]
    exact ih acc (fun tr htr => hall tr (by simp [htr]))

theorem addFold_db (rt : List Char) :
    ∀ (l : List SysTrack) (db₀ : Int → Option SysTrack) (f₀ : String → List Char)
      (q₀ : List (String × List Char)) (us₀ : List TrackState) (i : Int),
      ((((l.foldl (batch_add_tag_step (fun _ => false) rt) (db₀, f₀, q₀, us₀)).1) i
          = db₀ i) ∧
        (∀ tr ∈ l, tr.id = i → tagGuard rt tr = true)) ∨
      (∃ tr ∈ l, tr.id = i ∧
        ((l.foldl (batch_add_tag_step (fun _ => false) rt) (db₀, f₀, q₀, us₀)).1) i =
          some (addUpdated rt tr)) := by
  intro l
  induction l with
  | nil =>
    intro db₀ f₀ q₀ us₀ i
    left
    exact ⟨rfl, by simp⟩
  | cons u rest ih =>
    intro db₀ f₀ q₀ us₀ i
    rw [List.foldl_cons]
    by_cases hu : tagGuard rt u
    · rw [batch_add_tag_step_guarded hu]
      rcases ih db₀ f₀ q₀ us₀ i with ⟨h1, h2⟩ | ⟨tr, htr, hid, hval⟩
      · left
        refine ⟨h1, ?_⟩
        intro tr htr hid
        rcases List.mem_cons.mp htr with heq | h
        · subst heq; exact hu
        · exact h2 tr h hid
      · right
        exact ⟨tr, by simp [htr], hid, hval⟩
    · have hu' : tagGuard rt u = false := Bool.eq_false_iff.mpr hu
      rw [batch_add_tag_step_unguarded hu']
      rcases ih (Function.update db₀ u.id (some (addUpdated rt u)))
          (Function.update f₀ u.file_path (addNewComment rt u))
          (if u.persistent_id.isEmpty then q₀
            else q₀ ++ [(u.persistent_id, addNewComment rt u)])
          (us₀ ++ [⟨u.id, u.persistent_id, u.file_path,
            u.comment_raw.getD [], addNewComment rt u⟩]) i with
        ⟨h1, h2⟩ | ⟨tr, htr, hid, hval⟩
      · by_cases hui : u.id = i
        · right
          refine ⟨u, by simp, hui, ?_⟩
          rw [h1, ← hui, Function.update_same]
        · left
          refine ⟨?_, ?_⟩
          · rw [h1, Function.update_noteq (fun e => hui e.symm)]
          · intro tr htr hid
            rcases List.mem_cons.mp htr with heq | h
            · subst heq; exact absurd hid hui
            · exact h2 tr h hid
      · right
        exact ⟨tr, by simp [htr], hid, hval⟩

theorem tagGuard_addUpdated (rt : List Char) (tr : SysTrack)
    (hok : userPartOk (some tr) = true)
    (hsemi : ';' ∉ rt) (htrim : strTrim rt = rt) (hne : rt ≠ []) :
    tagGuard rt (addUpdated rt tr) = true := by
  have hu' : containsSeq DELIM
      ((decodeComment (tr.comment_raw.getD [])).1 ++ [' ', '&', '&']) = false := by
    have := hok
    unfold userPartOk at this
    simpa using this
  have hts' : ∀ x ∈ (decodeComment (tr.comment_raw.getD [])).2 ++ [rt],
      x ≠ [] ∧ strTrim x = x ∧ ';' ∉ x := by
    intro x hx
    rcases List.mem_append.mp hx with h | h
    · exact decodeComment_tags_props _ x h
    · rw [List.mem_singleton] at h
      subst h
      exact ⟨hne, htrim, hsemi⟩
  unfold tagGuard addUpdated
  show ((decodeComment ((some (addNewComment rt tr)).getD [])).2.any
    (fun t => toLowerList t = toLowerList rt)) = true
  rw [show (some (addNewComment rt tr)).getD [] = addNewComment rt tr from rfl]
  unfold addNewComment
  rw [decode_encode _ _ hu' hts' (by simp)]
  apply List.any_eq_true.mpr
  exact ⟨rt, by simp, by simp⟩

/-- C10 (amended): `batch_add_tag` returns immediately when the tag
trims to the empty string; it is a no-op — identical state, no writes,
no undo entries — when every fetched track already carries the tag up
to case; and calling it twice with the same arguments equals calling it
once, provided every fetched row's id column matches its key, the
trimmed tag contains no semicolon, no affected user-comment part
recreates a delimiter occurrence (`userPartOk`), and no file write
fails. -/
theorem c10_batch_add_tag_noop_idem (st : AppState) (ids : List Int)
    (tag : List Char) (fl : String → Bool) (gwFail gw₁ gw₂ : Bool) :
    (strTrim tag = [] → batch_add_tag fl gwFail ids tag st = st) ∧
    ((∀ i ∈ ids, tagPresentOpt (strTrim tag) (st.stores.db i) = true) →
      batch_add_tag fl gwFail ids tag st = st) ∧
    ((∀ i ∈ ids, wellKeyed i (st.stores.db i) = true) →
     ';' ∉ strTrim tag →
     (∀ i ∈ ids, userPartOk (st.stores.db i) = true) →
     batch_add_tag (fun _ => false) gw₂ ids tag
        (batch_add_tag (fun _ => false) gw₁ ids tag st) =
       batch_add_tag (fun _ => false) gw₁ ids tag st) := by
  have hA : ∀ (fl' : String → Bool) (gwFail' : Bool) (st' : AppState),
      strTrim tag = [] → batch_add_tag fl' gwFail' ids tag st' = st' := by
    intro fl' gwFail' st' h
    unfold batch_add_tag
    rw [if_pos h]
  have hB : ∀ (fl' : String → Bool) (gwFail' : Bool) (st' : AppState),
      (∀ i ∈ ids, tagPresentOpt (strTrim tag) (st'.stores.db i) = true) →
      batch_add_tag fl' gwFail' ids tag st' = st' := by
    intro fl' gwFail' st' hall
    by_cases hrt : strTrim tag = []
    · exact hA fl' gwFail' st' hrt
    · have hguard : ∀ tr ∈ ids.filterMap st'.stores.db,
          tagGuard (strTrim tag) tr = true := by
        intro tr htr
        obtain ⟨i, hi, hdb⟩ := List.mem_filterMap.mp htr
        have h := hall i hi
        rw [hdb] at h
        exact h
      simp only [batch_add_tag, if_neg hrt]
      rw [addFold_guarded fl' (strTrim tag) _ _ hguard]
      rfl
  refine ⟨hA fl gwFail st, hB fl gwFail st, ?_⟩
  intro hwf hsemi huser
  by_cases hrt : strTrim tag = []
  · rw [hA _ gw₁ st hrt, hA _ gw₂ st hrt]
  · apply hB
    intro i hi
    have hS1db : (batch_add_tag (fun _ => false) gw₁ ids tag st).stores.db =
        ((ids.filterMap st.stores.db).foldl
          (batch_add_tag_step (fun _ => false) (strTrim tag))
          (st.stores.db, st.stores.file, [], [])).1 := by
      simp only [batch_add_tag, if_neg hrt]
    rw [hS1db]
    rcases addFold_db (strTrim tag) (ids.filterMap st.stores.db)
        st.stores.db st.stores.file [] [] i with ⟨h1, h2⟩ | ⟨tr', htr', hid', hval⟩
    · rw [h1]
      rcases hdb : st.stores.db i with _ | tr
      · rfl
      · have htr1 : tr ∈ ids.filterMap st.stores.db :=
          List.mem_filterMap.mpr ⟨i, hi, hdb⟩
        have hidtr : tr.id = i := by
          have h := hwf i hi
          rw [hdb] at h
          unfold wellKeyed at h
          simpa using h
        show tagGuard (strTrim tag) tr = true
        exact h2 tr htr1 hidtr
    · rw [hval]
      obtain ⟨j, hj, hdbj⟩ := List.mem_filterMap.mp htr'
      have hok : userPartOk (some tr') = true := by
        have h := huser j hj
        rw [hdbj] at h
        exact h
      show tagGuard (strTrim tag) (addUpdated (strTrim tag) tr') = true
      exact tagGuard_addUpdated (strTrim tag) tr' hok hsemi (strTrim_idem tag) hrt

/-- Concrete state for the C10 counterexample: one track with no
comment yet. -/
def c10xState : AppState :=
  ⟨⟨fun j => if j = 1 then some ⟨1, "P10", "f10.mp3", none, 0⟩ else none,
    fun _ => [], fun _ => [], fun _ => 0⟩,
   ⟨[], []⟩⟩

/-- C10 counterexample: adding the tag "a; b" (a legal nonempty trimmed
tag containing a semicolon) twice is not the same as adding it once —
the re-decode splits the stored tag at its semicolon, so the membership
guard never sees "a; b" and the second call appends it again. -/
theorem c10_counterexample :
    ((batch_add_tag (fun _ => false) false [1] ("a; b".toList) c10xState).stores.db 1
      |>.map SysTrack.comment_raw) = some (some (" && a; b".toList)) ∧
    ((batch_add_tag (fun _ => false) false [1] ("a; b".toList)
        (batch_add_tag (fun _ => false) false [1] ("a; b".toList) c10xState)).stores.db 1
      |>.map SysTrack.comment_raw) = some (some (" && a; b; a; b".toList)) := by
  decide

theorem c10_batch_add_tag_noop_idem_witness :
    (batch_add_tag (fun _ => false) false [1] ("   ".toList) c10xState = c10xState) ∧
    (batch_add_tag (fun _ => false) false [1] ("Jazz".toList)
      ⟨⟨fun j => if j = 1 then some ⟨1, "P10", "f10.mp3",
          some ("hi && jazz".toList), 0⟩ else none,
        fun _ => [], fun _ => [], fun _ => 0⟩, ⟨[], []⟩⟩ =
      ⟨⟨fun j => if j = 1 then some ⟨1, "P10", "f10.mp3",
          some ("hi && jazz".toList), 0⟩ else none,
        fun _ => [], fun _ => [], fun _ => 0⟩, ⟨[], []⟩⟩) ∧
    (batch_add_tag (fun _ => false) false [1] ("rock".toList)
        (batch_add_tag (fun _ => false) false [1] ("rock".toList) c10xState) =
      batch_add_tag (fun _ => false) false [1] ("rock".toList) c10xState) :=
  ⟨(c10_batch_add_tag_noop_idem c10xState [1] ("   ".toList)
      (fun _ => false) false false false).1 (by decide),
   (c10_batch_add_tag_noop_idem _ [1] ("Jazz".toList)
      (fun _ => false) false false false).2.1 (by decide),
   (c10_batch_add_tag_noop_idem c10xState [1] ("rock".toList)
      (fun _ => false) false false false).2.2 (by decide) (by decide) (by decide)⟩

end TagDeck
